import Mathlib

set_option linter.dupNamespace false

/-!
Shallow embedding of the `aima-rs` Monte Carlo Tree Search engine and its
Connect Four (with Popout) game model, together with proofs checking the
natural-language specification against the code.

Layout:
* `ConnectFourLogic`  — embedding of `src/lib/game/connect-four-logic/src/lib.rs`
* `CF`                — embedding of the redundant `src/lib/connect-four/src/lib.rs`
* `MctsE2E`           — embedding of `src/lib/end-to-end/mcts-connect-four/src/lib.rs`
* `Mcts`              — embedding of `src/lib/monte-carlo-tree-search/src/lib.rs`
* invariants and claim theorems.

Modelling conventions: the Rust `i32` counters (`type Int = i32`) are modelled
as unbounded `Int`; panics (`unwrap` / `expect` / indexing) are modelled by
`Option`/`Except` with `none`/`error` denoting a panic; the `rand_pcg::Pcg64`
generator (an external crate) is modelled as an abstract deterministic stream
of naturals consumed by `choose`, which mirrors `SliceRandom::choose`
(`none` on an empty slice, otherwise a uniformly indexed element).  The `f64`
UCT score is not reproduced (floating point); engine functions take the
scoring function as an explicit parameter into an arbitrary linear order,
mirroring everything else of `uct_select` exactly.
-/

namespace ConnectFourLogic

/-- Errors of the connect-four-logic crate (`ConnectFourError`). -/
inductive ConnectFourError where
  | columnFull (col : Nat)
  | columnEmpty (col : Nat)
  | columnNotYours (col : Nat)
deriving DecidableEq, Repr

/-- `Player` of connect-four-logic. -/
inductive Player where
  | player1
  | player2
deriving DecidableEq, Repr

/-- `Player::other` (the toggling method, modelled functionally). -/
def Player.other : Player → Player
  | .player1 => .player2
  | .player2 => .player1

/-- `Cell`: empty or a piece of a player. -/
inductive Cell where
  | empty
  | player (p : Player)
deriving DecidableEq, Repr

/-- `Board`: row-major cells with width and height (row 0 is the top). -/
structure Board where
  cells : List Cell
  width : Nat
  height : Nat
deriving DecidableEq, Repr

/-- Well-formedness: the flat cell vector has exactly `width * height` cells
(guaranteed by `Board::new` and preserved by all mutations). -/
def Board.WF (b : Board) : Prop := b.cells.length = b.width * b.height

instance (b : Board) : Decidable b.WF := by unfold Board.WF; infer_instance

/-- `Board::new width height`: all cells empty. -/
def Board.new (width height : Nat) : Board :=
  ⟨List.replicate (width * height) Cell.empty, width, height⟩

/-- `Board::get col row` = `cells[row * width + col]` (in-range by caller contract). -/
def Board.get (b : Board) (col row : Nat) : Cell :=
  b.cells.getD (row * b.width + col) Cell.empty

/-- Writing through `Board::get_mut col row`. -/
def Board.setCell (b : Board) (col row : Nat) (c : Cell) : Board :=
  { b with cells := b.cells.set (row * b.width + col) c }

/-- `Board::can_insert col`: scan rows bottom-up (`(0..height).rev()`) for the
first empty cell; `ColumnFull` if none. -/
def Board.can_insert (b : Board) (col : Nat) : Except ConnectFourError Nat :=
  match (List.range b.height).reverse.find? (fun row => b.get col row = Cell.empty) with
  | some row => .ok row
  | none => .error (.columnFull col)

/-- `Board::insert col player`: write the player at the `can_insert` row. -/
def Board.insert (b : Board) (col : Nat) (player : Player) :
    Except ConnectFourError Board :=
  match b.can_insert col with
  | .ok row => .ok (b.setCell col row (Cell.player player))
  | .error e => .error e

/-- `Board::can_pop col player`: the bottom cell (`row = height - 1`) must be
occupied by `player`. -/
def Board.can_pop (b : Board) (col : Nat) (player : Player) :
    Except ConnectFourError Unit :=
  match b.get col (b.height - 1) with
  | Cell.empty => .error (.columnEmpty col)
  | Cell.player p => if p ≠ player then .error (.columnNotYours col) else .ok ()

/-- The shifting loop of `Board::pop`: for `row` in `(0..height-1).rev()`, copy
cell `(col, row)` down into `(col, row + 1)`. -/
def Board.popShift (b : Board) (col : Nat) : List Nat → Board
  | [] => b
  | row :: rest => (b.setCell col (row + 1) (b.get col row)).popShift col rest

/-- `Board::pop col player`: shift the column down one cell, then empty row 0. -/
def Board.pop (b : Board) (col : Nat) (player : Player) :
    Except ConnectFourError Board :=
  match b.can_pop col player with
  | .ok _ =>
    let shifted := b.popShift col (List.range (b.height - 1)).reverse
    .ok (shifted.setCell col 0 Cell.empty)
  | .error e => .error e

/-- `MoveType`. -/
inductive MoveType where
  | insert
  | pop
deriving DecidableEq, Repr

/-- `Move`: a move type plus a column. -/
structure Move where
  move_type : MoveType
  column : Nat
deriving DecidableEq, Repr

/-- `get_legal_moves board player`: per column (ascending) first an Insert if
`can_insert` succeeds, then a Pop if `can_pop` succeeds. -/
def get_legal_moves (board : Board) (player : Player) : List Move :=
  (List.range board.width).flatMap fun col =>
    (if (board.can_insert col).isOk then [Move.mk MoveType.insert col] else []) ++
    (if (board.can_pop col player).isOk then [Move.mk MoveType.pop col] else [])

/-- `TerminalPosition`. -/
inductive TerminalPosition where
  | isTerminalWin (p : Player)
  | isTerminalDraw
  | isNotTerminal
deriving DecidableEq, Repr

/-- The body of the win scan of `is_terminal_position` at one origin cell:
the four direction checks (→, ↓, ↘, ↗) in source order. -/
def winAt (b : Board) (col row : Nat) : Option Player :=
  match b.get col row with
  | Cell.empty => none
  | Cell.player p =>
    if col + 3 < b.width ∧ b.get (col + 1) row = Cell.player p ∧
        b.get (col + 2) row = Cell.player p ∧ b.get (col + 3) row = Cell.player p then
      some p
    else if row + 3 < b.height ∧ b.get col (row + 1) = Cell.player p ∧
        b.get col (row + 2) = Cell.player p ∧ b.get col (row + 3) = Cell.player p then
      some p
    else if col + 3 < b.width ∧ row + 3 < b.height ∧
        b.get (col + 1) (row + 1) = Cell.player p ∧
        b.get (col + 2) (row + 2) = Cell.player p ∧
        b.get (col + 3) (row + 3) = Cell.player p then
      some p
    else if col + 3 < b.width ∧ 3 ≤ row ∧
        b.get (col + 1) (row - 1) = Cell.player p ∧
        b.get (col + 2) (row - 2) = Cell.player p ∧
        b.get (col + 3) (row - 3) = Cell.player p then
      some p
    else none

/-- The row-major scan order of `is_terminal_position` (`for row … for col …`). -/
def scanOrder (b : Board) : List (Nat × Nat) :=
  (List.range b.height).flatMap fun row =>
    (List.range b.width).map fun col => (row, col)

/-- `is_terminal_position board`: first four-in-a-row found in row-major scan
order wins; otherwise a draw iff Player1 has no legal moves. -/
def is_terminal_position (board : Board) : TerminalPosition :=
  match (scanOrder board).findSome? (fun rc => winAt board rc.2 rc.1) with
  | some p => .isTerminalWin p
  | none =>
    if get_legal_moves board Player.player1 = [] then .isTerminalDraw
    else .isNotTerminal

/-- Modelled from the spec: a line of four collinear cells in one of the four
scan directions, anchored at `(col, row)`. -/
inductive Dir where
  | horiz
  | vert
  | diagDown
  | diagUp
deriving DecidableEq, Repr

/-- Modelled from the spec: the four cells of a line with anchor `(col, row)`
and direction `d`. -/
def lineCells (col row : Nat) : Dir → List (Nat × Nat)
  | .horiz => [(col, row), (col + 1, row), (col + 2, row), (col + 3, row)]
  | .vert => [(col, row), (col, row + 1), (col, row + 2), (col, row + 3)]
  | .diagDown => [(col, row), (col + 1, row + 1), (col + 2, row + 2), (col + 3, row + 3)]
  | .diagUp => [(col, row), (col + 1, row - 1), (col + 2, row - 2), (col + 3, row - 3)]

/-- Modelled from the spec: the in-board bound of a line with anchor
`(col, row)` and direction `d`. -/
def lineInBounds (b : Board) (col row : Nat) : Dir → Prop
  | .horiz => col + 3 < b.width ∧ row < b.height
  | .vert => col < b.width ∧ row + 3 < b.height
  | .diagDown => col + 3 < b.width ∧ row + 3 < b.height
  | .diagUp => col + 3 < b.width ∧ 3 ≤ row ∧ row < b.height

/-- Modelled from the spec: four collinear cells (horizontal, vertical or
either diagonal) all occupied by `p`, anchored at `(col, row)`. -/
def lineWin (b : Board) (p : Player) (col row : Nat) (d : Dir) : Prop :=
  lineInBounds b col row d ∧
    ∀ cr ∈ lineCells col row d, b.get cr.1 cr.2 = Cell.player p

instance (b : Board) (p : Player) (col row : Nat) (d : Dir) :
    Decidable (lineWin b p col row d) := by
  unfold lineWin lineInBounds
  cases d <;> exact instDecidableAnd

/-- Modelled from the spec: `p` has some four-in-a-row on the board. -/
def hasWin (b : Board) (p : Player) : Prop :=
  ∃ col row d, lineWin b p col row d

end ConnectFourLogic

namespace CF

/-! Embedding of the redundant `connect-four` crate (`src/lib/connect-four/src/lib.rs`).
It stores the grid as rows of cells (`Vec<Vec<Cell>>`) and carries defensive
`InvalidColumn`/`InvalidRow` errors.  Only the parts claim C4 cites are needed:
`can_pop` and `pop`.  `Player` and `Cell` are structurally identical to the
connect-four-logic ones and are shared. -/

open ConnectFourLogic (Player Cell)

/-- Errors of the connect-four crate (adds the defensive variants). -/
inductive CfError where
  | invalidColumn (col : Nat)
  | invalidRow (row : Nat)
  | columnFull (col : Nat)
  | columnEmpty (col : Nat)
  | columnNotYours (col : Nat)
deriving DecidableEq, Repr

/-- `Board` of the connect-four crate: `cells[row][col]`. -/
structure CfBoard where
  cells : List (List Cell)
  width : Nat
  height : Nat
deriving DecidableEq, Repr

/-- `cells[row][col]` (in-range by caller contract). -/
def CfBoard.at (b : CfBoard) (col row : Nat) : Cell :=
  (b.cells.getD row []).getD col Cell.empty

/-- Write `cells[row][col]`. -/
def CfBoard.setAt (b : CfBoard) (col row : Nat) (c : Cell) : CfBoard :=
  { b with cells := b.cells.set row ((b.cells.getD row []).set col c) }

/-- `Board::get_col` of the connect-four crate. -/
def CfBoard.get_col (b : CfBoard) (col : Nat) : Except CfError (List Cell) :=
  if b.width ≤ col then .error (.invalidColumn col)
  else .ok ((List.range b.height).map fun row => b.at col row)

/-- `Board::can_pop` of the connect-four crate. -/
def CfBoard.can_pop (b : CfBoard) (col : Nat) (player : Player) :
    Except CfError Unit :=
  if b.width ≤ col then .error (.invalidColumn col)
  else
    match b.get_col col with
    | .error e => .error e
    | .ok col_cells =>
      if col_cells.getD (b.height - 1) Cell.empty = Cell.empty then
        .error (.columnEmpty col)
      else if col_cells.getD (b.height - 1) Cell.empty ≠ Cell.player player then
        .error (.columnNotYours col)
      else .ok ()

/-- The shifting loop of the connect-four crate's `pop`:
`cells[row + 1][col] = cells[row][col]` for `row` in `(0..height-1).rev()`.
Note there is no final step emptying row 0. -/
def CfBoard.popShift (b : CfBoard) (col : Nat) : List Nat → CfBoard
  | [] => b
  | row :: rest => (b.setAt col (row + 1) (b.at col row)).popShift col rest

/-- `Board::pop` of the connect-four crate: shift the column down; row 0 is
left untouched. -/
def CfBoard.pop (b : CfBoard) (col : Nat) (player : Player) :
    Except CfError CfBoard :=
  match b.can_pop col player with
  | .ok _ => .ok (b.popShift col (List.range (b.height - 1)).reverse)
  | .error e => .error e

end CF

/-! Embedding of the generic MCTS engine (`src/lib/monte-carlo-tree-search/src/lib.rs`)
and its Connect Four instantiation (`src/lib/end-to-end/mcts-connect-four/src/lib.rs`). -/

namespace Mcts

/-- `SimulationResult`. -/
inductive SimulationResult where
  | win
  | notWin
deriving DecidableEq, Repr

/-- The `rand_pcg::Pcg64` generator, modelled as a deterministic stream of
naturals: `seq` is the pre-computed output sequence, `idx` the position. -/
structure Rng where
  seq : Nat → Nat
  idx : Nat

/-- Draw the next raw value from the generator. -/
def Rng.next (r : Rng) : Nat × Rng :=
  (r.seq r.idx, { r with idx := r.idx + 1 })

/-- `SliceRandom::choose`: `None` on an empty slice, otherwise the element at
a generator-provided index. -/
def choose {α : Type} (l : List α) (r : Rng) : Option α × Rng :=
  match l with
  | [] => (none, r)
  | x :: _ =>
    match Rng.next r with
    | (n, r') => (some (l.getD (n % l.length) x), r')

end Mcts

namespace MctsE2E

open ConnectFourLogic
open Mcts (SimulationResult Rng choose)

/-! The end-to-end crate wraps `connect_four_logic::Move` as `Action` and
carries its own two-variant `Player` enum that converts to
`connect_four_logic::Player` by the identity isomorphism; the embedding
identifies the two. -/

/-- `Action` (a wrapped `connect_four_logic::Move`). -/
structure Action where
  m : Move
deriving DecidableEq, Repr

/-- `State` of mcts-connect-four: board, player to move, perspective player. -/
structure State where
  board : Board
  turn : Player
  who_am_i : Player
deriving DecidableEq, Repr

/-- Apply one `connect_four_logic` move to a board for `player`
(`insert`/`pop` dispatch shared by `get_next_state`, `apply_move` and
`playout`); `none` models the `unwrap`/`expect` panic on an illegal move. -/
def applyMoveB (board : Board) (player : Player) (m : Move) : Option Board :=
  match m.move_type with
  | MoveType.insert =>
    match board.insert m.column player with
    | .ok b' => some b'
    | .error _ => none
  | MoveType.pop =>
    match board.pop m.column player with
    | .ok b' => some b'
    | .error _ => none

/-- `State::get_actions`: the legal moves of the player on turn, wrapped. -/
def State.get_actions (s : State) : List Action :=
  (get_legal_moves s.board s.turn).map Action.mk

/-- `State::get_next_state`: apply the action for the player on turn and
toggle the turn; `none` models the `expect("Invalid move")` panic. -/
def State.get_next_state (s : State) (a : Action) : Option State :=
  match applyMoveB s.board s.turn a.m with
  | some b' => some { s with board := b', turn := s.turn.other }
  | none => none

/-- `State::is_terminal`. -/
def State.is_terminal (s : State) : Bool :=
  is_terminal_position s.board ≠ TerminalPosition.isNotTerminal

/-- The winning-move scan of `playout`: find the first legal move whose
application is an immediate win for `current`; the outer `some` is absent when
an `unwrap` inside the scan panics (never happens on legal moves). -/
def scanWin (board : Board) (current : Player) :
    List Move → Option (Option Board)
  | [] => some none
  | m :: rest =>
    match applyMoveB board current m with
    | none => none
    | some b' =>
      if is_terminal_position b' = TerminalPosition.isTerminalWin current then
        some (some b')
      else scanWin board current rest

/-- The `while depth < max_depth` loop of `playout`, by recursion on the
remaining depth.  Returns the final board, or `none` on a panic. -/
def playoutLoop (board : Board) (current : Player) (rng : Rng) :
    Nat → Option (Board × Rng)
  | 0 => some (board, rng)
  | remaining + 1 =>
    if is_terminal_position board ≠ TerminalPosition.isNotTerminal then
      some (board, rng)
    else
      let moves := get_legal_moves board current
      if moves = [] then some (board, rng)
      else
        match scanWin board current moves with
        | none => none
        | some (some b') => some (b', rng)
        | some none =>
          match choose moves rng with
          | (none, _) => none
          | (some mv, rng') =>
            match applyMoveB board current mv with
            | none => none
            | some b' => playoutLoop b' current.other rng' remaining

/-- `playout state max_depth rng`: run the move loop, then report `Win` iff
the final position is a win for the perspective player. -/
def playout (s : State) (max_depth : Int) (rng : Rng) :
    Option (SimulationResult × Rng) :=
  match playoutLoop s.board s.turn rng max_depth.toNat with
  | none => none
  | some (b, rng') =>
    if is_terminal_position b = TerminalPosition.isTerminalWin s.who_am_i then
      some (SimulationResult.win, rng')
    else some (SimulationResult.notWin, rng')

/-- The result-collection loop of `State::simulate`: `count` sequential
playouts threading the generator. -/
def simulateLoop (s : State) (max_depth : Int) (rng : Rng) :
    Nat → Option (List SimulationResult × Rng)
  | 0 => some ([], rng)
  | count + 1 =>
    match playout s max_depth rng with
    | none => none
    | some (res, rng') =>
      match simulateLoop s max_depth rng' count with
      | none => none
      | some (rest, rng'') => some (res :: rest, rng'')

/-- `State::simulate`: `(0..playouts).map(|_| playout(..)).collect()`. -/
def State.simulate (s : State) (playouts max_depth_per_playout : Int)
    (rng : Rng) : Option (List SimulationResult × Rng) :=
  simulateLoop s max_depth_per_playout rng playouts.toNat

end MctsE2E

namespace Mcts

/-- `MctsNode`: parent handle, children map (association list keyed by
action), and the two counters.  Arena handles are list indices. -/
structure MctsNode (A : Type) where
  parent : Option Nat
  children : List (A × Nat)
  visits : Int
  wins : Int
deriving Repr

instance {A : Type} : Inhabited (MctsNode A) := ⟨⟨none, [], 0, 0⟩⟩

/-- `MctsNode::new parent`. -/
def MctsNode.new {A : Type} (parent : Option Nat) : MctsNode A := ⟨parent, [], 0, 0⟩

/-- `MctsTree`: slotmap arena (a list, keys are indices; nothing is ever
removed), root handle and root state. -/
structure MctsTree (S A : Type) where
  nodes : List (MctsNode A)
  root : Nat
  root_state : S
deriving Repr

/-- `MctsTree::new root_state`: a single parentless zeroed node. -/
def MctsTree.new {S A : Type} (root_state : S) : MctsTree S A :=
  ⟨[MctsNode.new none], 0, root_state⟩

/-- `HashMap::insert` on the children map: replace the entry of an existing
key, otherwise add the binding. -/
def insertChild {A : Type} [DecidableEq A] (l : List (A × Nat)) (a : A) (c : Nat) :
    List (A × Nat) :=
  if l.any (fun p => p.1 = a) then l.map (fun p => if p.1 = a then (a, c) else p)
  else l ++ [(a, c)]

/-- `MctsTree::add_child`: insert a fresh zeroed node with the given parent and
register it under `action` in the parent's children; returns the new handle. -/
def MctsTree.add_child {S A : Type} [DecidableEq A] (t : MctsTree S A)
    (parent : Nat) (action : A) : MctsTree S A × Nat :=
  let child := t.nodes.length
  let nodes₁ := t.nodes ++ [MctsNode.new (some parent)]
  let pnode := nodes₁.getD parent default
  ({ t with
      nodes := nodes₁.set parent { pnode with children := insertChild pnode.children action child } },
    child)

/-- `UctSelectResult`. -/
structure UctSelectResult (A : Type) where
  node : Nat
  action : Option A
  finished : Bool
deriving Repr

/-- `Iterator::max_by` over the scored children: the last element attaining
the maximum score. -/
def maxByLast {A : Type} {β : Type} [LinearOrder β] (l : List (A × Nat × β)) :
    Option (A × Nat × β) :=
  l.foldl
    (fun acc x =>
      match acc with
      | none => some x
      | some y => if y.2.2 ≤ x.2.2 then some x else some y)
    none

/-- `uct_select`, with the `f64` `uct_score` of the source abstracted into the
`score : visits → wins → parent_visits → β` parameter (`β` any linear order):
no children means `finished`; otherwise the maximally scored child and its
action.  The source's `panic!("No action found.")` branch (empty score list)
is unreachable and modelled by the `finished` result. -/
def uct_select {S A β : Type} [DecidableEq A] [LinearOrder β]
    (score : Int → Int → Int → β) (t : MctsTree S A) (node_key : Nat) :
    UctSelectResult A :=
  let node := t.nodes.getD node_key default
  if node.children.isEmpty then ⟨node_key, none, true⟩
  else
    let parent_visits := node.visits
    let all_scores := node.children.map fun ac =>
      let child_node := t.nodes.getD ac.2 default
      (ac.1, ac.2, score child_node.visits child_node.wins parent_visits)
    match maxByLast all_scores with
    | some x => ⟨x.2.1, some x.1, false⟩
    | none => ⟨node_key, none, true⟩

/-- The `State` trait of the engine, as a record of capabilities (`none`
models a panic inside the callee). -/
structure Game (S A : Type) where
  simulate : S → Int → Int → Rng → Option (List SimulationResult × Rng)
  get_actions : S → List A
  get_next_state : S → A → Option S
  is_terminal : S → Bool

/-- `IterationLimitKind` (the wall-clock duration payload is real time and is
not part of the model). -/
inductive IterationLimitKind where
  | iterations (n : Int)
  | timeSeconds

/-- The `Mcts` engine struct.  The `f64` `exploration_constant` lives inside
the `score` parameter threaded to the functions instead. -/
structure Mcts (S A : Type) where
  tree : MctsTree S A
  iteration_limit : IterationLimitKind
  playouts_per_simulation : Int
  max_depth_per_playout : Int
  rng : Rng

/-- `Mcts::new`: a fresh single-node tree. -/
def Mcts.new {S A : Type} (root_state : S) (iteration_limit : IterationLimitKind)
    (playouts_per_simulation max_depth_per_playout : Int) (rng : Rng) : Mcts S A :=
  ⟨MctsTree.new root_state, iteration_limit, playouts_per_simulation,
    max_depth_per_playout, rng⟩

/-- The `loop` of `Mcts::select`, with fuel: descend through `uct_select`
until a childless node is reached. -/
def selectLoop {S A β : Type} [DecidableEq A] [LinearOrder β] (g : Game S A)
    (score : Int → Int → Int → β) (t : MctsTree S A) :
    Nat → Nat → S → Option (Nat × S)
  | 0, _, _ => none
  | fuel + 1, node_key, state =>
    let r := uct_select score t node_key
    if r.finished then some (node_key, state)
    else
      match r.action with
      | none => none
      | some a =>
        match g.get_next_state state a with
        | none => none
        | some state' => selectLoop g score t fuel r.node state'

/-- `Mcts::select`: descend from the root, cloning the root state.  The fuel
`nodes.length + 1` is enough because each step moves to a strictly larger
handle (`add_child` hands out increasing indices). -/
def Mcts.select {S A β : Type} [DecidableEq A] [LinearOrder β] (g : Game S A)
    (score : Int → Int → Int → β) (m : Mcts S A) : Option (Nat × S) :=
  selectLoop g score m.tree (m.tree.nodes.length + 1) m.tree.root m.tree.root_state

/-- Association-list lookup, mirroring `HashMap::get` on the children map. -/
def lookupChild {A : Type} [DecidableEq A] (l : List (A × Nat)) (a : A) : Option Nat :=
  (l.find? fun p => p.1 = a).map Prod.snd

/-- `Mcts::expand`: terminal states are returned unchanged; otherwise one
child per action is added, a random action is drawn, and the matching child
handle plus successor state is returned.  `none` models the `unwrap` panics
(empty action list, or a failing `get_next_state`). -/
def Mcts.expand {S A : Type} [DecidableEq A] (g : Game S A) (t : MctsTree S A)
    (rng : Rng) (node_key : Nat) (state : S) :
    Option (Nat × S × MctsTree S A × Rng) :=
  if g.is_terminal state then some (node_key, state, t, rng)
  else
    let actions := g.get_actions state
    let t' := actions.foldl (fun tt a => (tt.add_child node_key a).1) t
    match choose actions rng with
    | (none, _) => none
    | (some a, rng') =>
      match lookupChild (t'.nodes.getD node_key default).children a with
      | none => none
      | some child =>
        match g.get_next_state state a with
        | none => none
        | some state' => some (child, state', t', rng')

/-- The per-node counter update of `back_propagate`: one visit per result, one
win per `Win` result. -/
def bpNode {A : Type} (results : List SimulationResult) (nd : MctsNode A) : MctsNode A :=
  results.foldl
    (fun n r =>
      { n with
        visits := n.visits + 1,
        wins := n.wins + match r with | .win => 1 | .notWin => 0 })
    nd

/-- The `loop` of `back_propagate`, with fuel: update the node, then walk to
its parent until the parentless root is reached. -/
def bpLoop {S A : Type} (results : List SimulationResult) :
    MctsTree S A → Nat → Nat → Option (MctsTree S A)
  | _, 0, _ => none
  | t, fuel + 1, node_key =>
    let nd := t.nodes.getD node_key default
    let t' := { t with nodes := t.nodes.set node_key (bpNode results nd) }
    match nd.parent with
    | none => some t'
    | some p => bpLoop results t' fuel p

/-- `Mcts::back_propagate`.  The fuel `nodes.length` is enough because parent
handles strictly decrease. -/
def Mcts.back_propagate {S A : Type} (t : MctsTree S A) (node_key : Nat)
    (results : List SimulationResult) : Option (MctsTree S A) :=
  bpLoop results t t.nodes.length node_key

/-- `Mcts::iteration`: select, expand, simulate, back-propagate. -/
def Mcts.iteration {S A β : Type} [DecidableEq A] [LinearOrder β] (g : Game S A)
    (score : Int → Int → Int → β) (m : Mcts S A) : Option (Mcts S A) :=
  match m.select g score with
  | none => none
  | some (node_key, state) =>
    match Mcts.expand g m.tree m.rng node_key state with
    | none => none
    | some (node_key₂, state₂, t₂, rng₂) =>
      match g.simulate state₂ m.playouts_per_simulation m.max_depth_per_playout rng₂ with
      | none => none
      | some (results, rng₃) =>
        match Mcts.back_propagate t₂ node_key₂ results with
        | none => none
        | some t₃ => some { m with tree := t₃, rng := rng₃ }

/-- The `for _ in 0..iterations` loop of `Mcts::run`. -/
def Mcts.runIter {S A β : Type} [DecidableEq A] [LinearOrder β] (g : Game S A)
    (score : Int → Int → Int → β) (m : Mcts S A) : Nat → Option (Mcts S A)
  | 0 => some m
  | n + 1 =>
    match m.iteration g score with
    | none => none
    | some m' => Mcts.runIter g score m' n

/-- `Mcts::run`.  A negative iteration count runs zero iterations
(`0..iterations` is empty); the wall-clock variant depends on real time and
is outside the model. -/
def Mcts.run {S A β : Type} [DecidableEq A] [LinearOrder β] (g : Game S A)
    (score : Int → Int → Int → β) (m : Mcts S A) : Option (Mcts S A) :=
  match m.iteration_limit with
  | .iterations n => m.runIter g score n.toNat
  | .timeSeconds => none

/-- `Int::MIN` (`i32`), the initial best score in `best_action`. -/
def intMin : Int := -(2 ^ 31)

/-- `Mcts::best_action`: the root child with the strictly highest visit count
seen so far in children order (ties keep the earlier one). -/
def Mcts.best_action {S A : Type} (m : Mcts S A) : Option A :=
  let t := m.tree
  (((t.nodes.getD t.root default).children.foldl
    (fun (best : Option A × Int) ac =>
      let child_node := t.nodes.getD ac.2 default
      if best.2 < child_node.visits then (some ac.1, child_node.visits) else best)
    (none, intMin))).1

end Mcts

namespace MctsE2E

open ConnectFourLogic
open Mcts (SimulationResult Rng Game)

/-- The `monte_carlo_tree_search::State` instantiation of the end-to-end
crate, bundling its four trait methods. -/
def c4Game : Game State Action :=
  ⟨State.simulate, State.get_actions, State.get_next_state, State.is_terminal⟩

end MctsE2E

namespace Mcts

/-- The number of `Win` results in a simulation batch. -/
def winCount : List SimulationResult → Int
  | [] => 0
  | .win :: rest => 1 + winCount rest
  | .notWin :: rest => winCount rest

/-- The node stored at handle `i` (a default node for dangling handles, which
well-formed trees never contain). -/
def nd {S A : Type} (t : MctsTree S A) (i : Nat) : MctsNode A :=
  t.nodes.getD i default

/-- Structural well-formedness of the arena, as `MctsTree::new` establishes it
and `add_child` preserves it: the root is handle 0 and the only parentless
node, parents precede children, children lists point to in-range handles with
matching back-pointers, each handle is registered under at most one edge, and
the action keys of one node are distinct. -/
structure TreeWF {S A : Type} (t : MctsTree S A) : Prop where
  root_zero : t.root = 0
  nonempty : 0 < t.nodes.length
  root_parent : (nd t t.root).parent = none
  parent_lt : ∀ i, i < t.nodes.length → ∀ p, (nd t i).parent = some p → p < i
  parent_of_nonroot : ∀ i, i < t.nodes.length → i ≠ t.root → (nd t i).parent ≠ none
  child_bounds : ∀ i, i < t.nodes.length → ∀ a c, (a, c) ∈ (nd t i).children →
    i < c ∧ c < t.nodes.length ∧ (nd t c).parent = some i
  edge_unique : ∀ i j a a' c, i < t.nodes.length → j < t.nodes.length →
    (a, c) ∈ (nd t i).children → (a', c) ∈ (nd t j).children → i = j ∧ a = a'
  keys_nodup : ∀ i, i < t.nodes.length → ((nd t i).children.map Prod.fst).Nodup

/-- Counter sanity of every node: `0 ≤ wins ≤ visits`, and a child never has
more visits than its parent. -/
def CountersInv {S A : Type} (t : MctsTree S A) : Prop :=
  ∀ i, i < t.nodes.length →
    0 ≤ (nd t i).wins ∧ (nd t i).wins ≤ (nd t i).visits ∧
    ∀ p, (nd t i).parent = some p → (nd t i).visits ≤ (nd t p).visits

/-- The state associated to a node: the state obtained by replaying the
actions on the path from the root (what `select` reconstructs). -/
inductive ReplayAt {S A : Type} (g : Game S A) (t : MctsTree S A) : Nat → S → Prop where
  | root : ReplayAt g t t.root t.root_state
  | child {i : Nat} {s : S} {a : A} {c : Nat} {s' : S} :
      ReplayAt g t i s → (a, c) ∈ (nd t i).children →
      g.get_next_state s a = some s' → ReplayAt g t c s'

/-- Consistency of the tree with the game: every replayed state satisfies `P`,
and an expanded node's children are keyed exactly by the legal actions of its
(non-terminal) replayed state. -/
def ReplayInv {S A : Type} (g : Game S A) (P : S → Prop) (t : MctsTree S A) : Prop :=
  ∀ i s, ReplayAt g t i s → P s ∧
    ((nd t i).children ≠ [] →
      g.is_terminal s = false ∧ (nd t i).children.map Prod.fst = g.get_actions s)

/-- The handles visited by `back_propagate` started at `start`: `start` itself
and its ancestors. -/
inductive OnPath {S A : Type} (t : MctsTree S A) (start : Nat) : Nat → Prop where
  | refl : OnPath t start start
  | step {j p : Nat} : OnPath t start j → (nd t j).parent = some p → OnPath t start p

/-- Engine states reachable from a freshly constructed engine by whole
(panic-free) iterations. -/
inductive Reach {S A β : Type} [DecidableEq A] [LinearOrder β] (g : Game S A)
    (score : Int → Int → Int → β) : Mcts S A → Prop where
  | base (root_state : S) (il : IterationLimitKind) (p d : Int) (r : Rng) :
      Reach g score (Mcts.new root_state il p d r)
  | step {m m' : Mcts S A} : Reach g score m → m.iteration g score = some m' →
      Reach g score m'

/-- The game-level facts the engine soundness proof needs, relative to a state
predicate `P` preserved along legal play. -/
structure GoodGame {S A : Type} (g : Game S A) (P : S → Prop) : Prop where
  actions_nonempty : ∀ s, P s → g.is_terminal s = false → g.get_actions s ≠ []
  actions_nodup : ∀ s, P s → (g.get_actions s).Nodup
  next_ok : ∀ s a, P s → a ∈ g.get_actions s → ∃ s', g.get_next_state s a = some s' ∧ P s'
  simulate_ok : ∀ s k d r, P s → ∃ out, g.simulate s k d r = some out

end Mcts

namespace MctsE2E

/-- The states claim C2's amendment quantifies over: a well-formed board that
is at least four columns wide and one row high. -/
def StateOK (s : State) : Prop :=
  s.board.WF ∧ 4 ≤ s.board.width ∧ 1 ≤ s.board.height

instance (s : State) : Decidable (StateOK s) := by
  unfold StateOK
  infer_instance

end MctsE2E

namespace ConnectFourLogic

theorem mem_scanOrder {b : Board} {row col : Nat} :
    (row, col) ∈ scanOrder b ↔ row < b.height ∧ col < b.width := by
  simp only [scanOrder, List.mem_flatMap, List.mem_map, List.mem_range, Prod.mk.injEq]
  constructor
  · rintro ⟨r, hr, c, hc, rfl, rfl⟩
    exact ⟨hr, hc⟩
  · rintro ⟨hr, hc⟩
    exact ⟨row, hr, col, hc, rfl, rfl⟩

theorem winAt_eq_some_of_lineWin {b : Board} {p : Player} {col row : Nat} {d : Dir}
    (h : lineWin b p col row d) : winAt b col row = some p := by
  obtain ⟨hb, hc⟩ := h
  have h0 : b.get col row = Cell.player p := hc (col, row) (by cases d <;> simp [lineCells])
  cases d with
  | horiz =>
    simp only [winAt, h0]
    split_ifs with h1 h2 h3 h4 <;> try rfl
    exact absurd ⟨hb.1, hc (col + 1, row) (by simp [lineCells]),
      hc (col + 2, row) (by simp [lineCells]),
      hc (col + 3, row) (by simp [lineCells])⟩ h1
  | vert =>
    simp only [winAt, h0]
    split_ifs with h1 h2 h3 h4 <;> try rfl
    exact absurd ⟨hb.2, hc (col, row + 1) (by simp [lineCells]),
      hc (col, row + 2) (by simp [lineCells]),
      hc (col, row + 3) (by simp [lineCells])⟩ h2
  | diagDown =>
    simp only [winAt, h0]
    split_ifs with h1 h2 h3 h4 <;> try rfl
    exact absurd ⟨hb.1, hb.2, hc (col + 1, row + 1) (by simp [lineCells]),
      hc (col + 2, row + 2) (by simp [lineCells]),
      hc (col + 3, row + 3) (by simp [lineCells])⟩ h3
  | diagUp =>
    simp only [winAt, h0]
    split_ifs with h1 h2 h3 h4 <;> try rfl
    exact absurd ⟨hb.1, hb.2.1, hc (col + 1, row - 1) (by simp [lineCells]),
      hc (col + 2, row - 2) (by simp [lineCells]),
      hc (col + 3, row - 3) (by simp [lineCells])⟩ h4

theorem lineWin_of_winAt_eq_some {b : Board} {q : Player} {col row : Nat}
    (hcol : col < b.width) (hrow : row < b.height)
    (h : winAt b col row = some q) : ∃ d, lineWin b q col row d := by
  rcases hget : b.get col row with _ | p
  · simp only [winAt, hget] at h
    exact Option.noConfusion h
  · simp only [winAt, hget] at h
    split_ifs at h with h1 h2 h3 h4 <;>
      (simp only [Option.some.injEq] at h; subst h)
    · refine ⟨.horiz, ⟨h1.1, hrow⟩, ?_⟩
      rintro ⟨c, r⟩ hcr
      simp only [lineCells, List.mem_cons, List.not_mem_nil, or_false, Prod.mk.injEq] at hcr
      rcases hcr with ⟨rfl, rfl⟩ | ⟨rfl, rfl⟩ | ⟨rfl, rfl⟩ | ⟨rfl, rfl⟩
      · exact hget
      · exact h1.2.1
      · exact h1.2.2.1
      · exact h1.2.2.2
    · refine ⟨.vert, ⟨hcol, h2.1⟩, ?_⟩
      rintro ⟨c, r⟩ hcr
      simp only [lineCells, List.mem_cons, List.not_mem_nil, or_false, Prod.mk.injEq] at hcr
      rcases hcr with ⟨rfl, rfl⟩ | ⟨rfl, rfl⟩ | ⟨rfl, rfl⟩ | ⟨rfl, rfl⟩
      · exact hget
      · exact h2.2.1
      · exact h2.2.2.1
      · exact h2.2.2.2
    · refine ⟨.diagDown, ⟨h3.1, h3.2.1⟩, ?_⟩
      rintro ⟨c, r⟩ hcr
      simp only [lineCells, List.mem_cons, List.not_mem_nil, or_false, Prod.mk.injEq] at hcr
      rcases hcr with ⟨rfl, rfl⟩ | ⟨rfl, rfl⟩ | ⟨rfl, rfl⟩ | ⟨rfl, rfl⟩
      · exact hget
      · exact h3.2.2.1
      · exact h3.2.2.2.1
      · exact h3.2.2.2.2
    · refine ⟨.diagUp, ⟨h4.1, h4.2.1, hrow⟩, ?_⟩
      rintro ⟨c, r⟩ hcr
      simp only [lineCells, List.mem_cons, List.not_mem_nil, or_false, Prod.mk.injEq] at hcr
      rcases hcr with ⟨rfl, rfl⟩ | ⟨rfl, rfl⟩ | ⟨rfl, rfl⟩ | ⟨rfl, rfl⟩
      · exact hget
      · exact h4.2.2.1
      · exact h4.2.2.2.1
      · exact h4.2.2.2.2

theorem hasWin_of_terminal_win {b : Board} {q : Player}
    (h : is_terminal_position b = .isTerminalWin q) : hasWin b q := by
  unfold is_terminal_position at h
  rcases hscan : (scanOrder b).findSome? (fun rc => winAt b rc.2 rc.1) with _ | p
  · rw [hscan] at h
    split_ifs at h
  · rw [hscan] at h
    simp only [TerminalPosition.isTerminalWin.injEq] at h
    subst h
    obtain ⟨⟨row, col⟩, hmem, hwin⟩ := List.exists_of_findSome?_eq_some hscan
    obtain ⟨hrow, hcol⟩ := mem_scanOrder.mp hmem
    obtain ⟨d, hd⟩ := lineWin_of_winAt_eq_some hcol hrow hwin
    exact ⟨col, row, d, hd⟩

theorem terminal_win_of_hasWin {b : Board} (h : ∃ p, hasWin b p) :
    ∃ q, is_terminal_position b = .isTerminalWin q := by
  obtain ⟨p, col, row, d, hlw⟩ := h
  have hbounds : row < b.height ∧ col < b.width := by
    obtain ⟨hb, -⟩ := hlw
    cases d with
    | horiz => simp only [lineInBounds] at hb; omega
    | vert => simp only [lineInBounds] at hb; omega
    | diagDown => simp only [lineInBounds] at hb; omega
    | diagUp => simp only [lineInBounds] at hb; omega
  have hmem : (row, col) ∈ scanOrder b := mem_scanOrder.mpr hbounds
  have hw : winAt b col row = some p := winAt_eq_some_of_lineWin hlw
  rcases hscan : (scanOrder b).findSome? (fun rc => winAt b rc.2 rc.1) with _ | q
  · rw [List.findSome?_eq_none_iff] at hscan
    exact absurd (hscan (row, col) hmem) (by simp [hw])
  · exact ⟨q, by unfold is_terminal_position; rw [hscan]⟩

theorem terminal_of_no_win {b : Board} (h : ¬ ∃ p, hasWin b p) :
    is_terminal_position b =
      (if get_legal_moves b Player.player1 = [] then TerminalPosition.isTerminalDraw
        else TerminalPosition.isNotTerminal) := by
  rcases hscan : (scanOrder b).findSome? (fun rc => winAt b rc.2 rc.1) with _ | q
  · unfold is_terminal_position
    rw [hscan]
  · exact absurd ⟨q, hasWin_of_terminal_win
      (by unfold is_terminal_position; rw [hscan])⟩ h

end ConnectFourLogic

namespace ConnectFourLogic

theorem flatIndex_inj {w col row col' row' : Nat} (hc : col < w) (hc' : col' < w)
    (h : row * w + col = row' * w + col') : row = row' ∧ col = col' := by
  rcases Nat.lt_trichotomy row row' with hlt | rfl | hgt
  · exfalso
    have : row * w + col < row' * w + col' := by
      calc row * w + col < row * w + w := by omega
        _ = (row + 1) * w := by ring
        _ ≤ row' * w := Nat.mul_le_mul_right w hlt
        _ ≤ row' * w + col' := Nat.le_add_right _ _
    omega
  · exact ⟨rfl, by omega⟩
  · exfalso
    have : row' * w + col' < row * w + col := by
      calc row' * w + col' < row' * w + w := by omega
        _ = (row' + 1) * w := by ring
        _ ≤ row * w := Nat.mul_le_mul_right w hgt
        _ ≤ row * w + col := Nat.le_add_right _ _
    omega

theorem Board.length_setCell (b : Board) (col row : Nat) (c : Cell) :
    (b.setCell col row c).cells.length = b.cells.length := by
  simp [Board.setCell]

theorem Board.width_setCell (b : Board) (col row : Nat) (c : Cell) :
    (b.setCell col row c).width = b.width := rfl

theorem Board.height_setCell (b : Board) (col row : Nat) (c : Cell) :
    (b.setCell col row c).height = b.height := rfl

theorem Board.get_setCell_self (b : Board) {col row : Nat} (c : Cell)
    (h : row * b.width + col < b.cells.length) :
    (b.setCell col row c).get col row = c := by
  simp [Board.get, Board.setCell, List.getD_eq_getElem?_getD, List.getElem?_set_self h]

theorem Board.get_setCell_ne (b : Board) {col row col' row' : Nat} (c : Cell)
    (hc : col < b.width) (hc' : col' < b.width)
    (hne : ¬(col = col' ∧ row = row')) :
    (b.setCell col' row' c).get col row = b.get col row := by
  have hidx : row * b.width + col ≠ row' * b.width + col' := fun h =>
    hne ⟨(flatIndex_inj hc hc' h).2, (flatIndex_inj hc hc' h).1⟩
  simp [Board.get, Board.setCell, List.getD_eq_getElem?_getD,
    List.getElem?_set_ne (Ne.symm hidx)]

theorem Board.popShift_structure (b : Board) (col : Nat) (l : List Nat) :
    (b.popShift col l).cells.length = b.cells.length ∧
      (b.popShift col l).width = b.width ∧ (b.popShift col l).height = b.height := by
  induction l generalizing b with
  | nil => exact ⟨rfl, rfl, rfl⟩
  | cons row rest ih =>
    have := ih (b.setCell col (row + 1) (b.get col row))
    simpa [Board.popShift, Board.length_setCell] using this

theorem range_succ_reverse (k : Nat) :
    (List.range (k + 1)).reverse = k :: (List.range k).reverse := by
  rw [List.range_succ, List.reverse_append]
  rfl

/-- Pointwise description of the column-shifting loop of `pop` run on rows
`k-1, …, 0`: rows `1..k` of the column take the old rows `0..k-1`, row 0 and
rows above `k` keep their value, and other columns are untouched. -/
theorem Board.popShift_spec (b : Board) (col k : Nat) (hwf : b.WF)
    (hcol : col < b.width) (hk : k ≤ b.height - 1) (hh : 0 < b.height) :
    (∀ c, c < b.width → c ≠ col → ∀ row,
        (b.popShift col (List.range k).reverse).get c row = b.get c row) ∧
      (∀ row, row < k →
        (b.popShift col (List.range k).reverse).get col (row + 1) = b.get col row) ∧
      (∀ row, row = 0 ∨ k < row →
        (b.popShift col (List.range k).reverse).get col row = b.get col row) := by
  induction k generalizing b with
  | zero =>
    exact ⟨fun c _ _ row => rfl, fun row h => absurd h (Nat.not_lt_zero row),
      fun row _ => rfl⟩
  | succ k ih =>
    rw [range_succ_reverse]
    simp only [Board.popShift]
    set b₁ := b.setCell col (k + 1) (b.get col k) with hb₁
    have hwf₁ : b₁.WF := by
      unfold Board.WF at hwf ⊢
      simp [hb₁, Board.length_setCell, Board.width_setCell, Board.height_setCell, hwf]
    have hdim₁ : b₁.height = b.height := rfl
    have hidx : (k + 1) * b.width + col < b.cells.length := by
      rw [hwf]
      calc (k + 1) * b.width + col < (k + 1) * b.width + b.width := by omega
        _ = (k + 2) * b.width := by ring
        _ ≤ b.height * b.width := Nat.mul_le_mul_right _ (by omega)
        _ = b.width * b.height := Nat.mul_comm _ _
    have hcol₁ : col < b₁.width := hcol
    obtain ⟨ih1, ih2, ih3⟩ := ih b₁ hwf₁ hcol₁ (by omega) (by omega)
    refine ⟨?_, ?_, ?_⟩
    · intro c hc hne row
      rw [ih1 c hc hne row, hb₁]
      exact b.get_setCell_ne _ hc hcol (fun hand => hne hand.1)
    · intro row hrow
      rcases Nat.lt_or_ge row k with hlt | hge
      · rw [ih2 row hlt, hb₁]
        exact b.get_setCell_ne _ hcol hcol (fun hand => by omega)
      · have hrowk : row = k := by omega
        subst hrowk
        rw [ih3 (row + 1) (Or.inr (by omega)), hb₁]
        exact b.get_setCell_self _ hidx
    · intro row hrow
      have hne : ¬(col = col ∧ row = k + 1) := by
        rintro ⟨-, rfl⟩
        omega
      rcases hrow with rfl | hgt
      · rw [ih3 0 (Or.inl rfl), hb₁]
        exact b.get_setCell_ne _ hcol hcol hne
      · rw [ih3 row (Or.inr (by omega)), hb₁]
        exact b.get_setCell_ne _ hcol hcol hne

theorem Board.can_pop_ok_iff (b : Board) (col : Nat) (p : Player) :
    b.can_pop col p = .ok () ↔ b.get col (b.height - 1) = Cell.player p := by
  unfold Board.can_pop
  rcases b.get col (b.height - 1) with _ | q
  · simp
  · by_cases h : q = p <;> simp [h]

theorem Board.can_pop_empty_iff (b : Board) (col : Nat) (p : Player) :
    b.can_pop col p = .error (.columnEmpty col) ↔
      b.get col (b.height - 1) = Cell.empty := by
  unfold Board.can_pop
  rcases b.get col (b.height - 1) with _ | q
  · simp
  · by_cases h : q = p <;> simp [h]

theorem Board.can_pop_notYours_iff (b : Board) (col : Nat) (p : Player) :
    b.can_pop col p = .error (.columnNotYours col) ↔
      b.get col (b.height - 1) = Cell.player p.other := by
  unfold Board.can_pop
  rcases b.get col (b.height - 1) with _ | q
  · simp
  · by_cases h : q = p
    · subst h
      cases q <;> simp [Player.other]
    · cases q <;> cases p <;> simp_all [Player.other]

/-- Full success characterisation of `Board::pop` on the connect-four-logic
board: it succeeds iff the bottom cell belongs to the player, each cell of the
column moves down one row, row 0 becomes empty, and other columns are
untouched.  (On failure the functional embedding returns the error without a
board, matching the source which leaves the board unmutated.) -/
theorem Board.pop_spec (b : Board) (col : Nat) (p : Player) (hwf : b.WF)
    (hcol : col < b.width) (hh : 0 < b.height)
    (hok : b.get col (b.height - 1) = Cell.player p) :
    ∃ b', b.pop col p = .ok b' ∧
      b'.width = b.width ∧ b'.height = b.height ∧ b'.WF ∧
      b'.get col 0 = Cell.empty ∧
      (∀ r, r < b.height - 1 → b'.get col (r + 1) = b.get col r) ∧
      (∀ c, c < b.width → c ≠ col → ∀ row, b'.get c row = b.get c row) := by
  have hcp : b.can_pop col p = .ok () := (b.can_pop_ok_iff col p).mpr hok
  obtain ⟨h1, h2, h3⟩ :=
    b.popShift_spec col (b.height - 1) hwf hcol (le_refl _) hh
  set shifted := b.popShift col (List.range (b.height - 1)).reverse with hsh
  obtain ⟨hlen, hw, hht⟩ := b.popShift_structure col (List.range (b.height - 1)).reverse
  have hb' : b.pop col p = .ok (shifted.setCell col 0 Cell.empty) := by
    unfold Board.pop
    rw [hcp]
  have hwcol : col < shifted.width := by rw [hw]; exact hcol
  have hidx0 : 0 * shifted.width + col < shifted.cells.length := by
    rw [hlen, hwf]
    calc 0 * shifted.width + col = col := by ring
      _ < b.width := hcol
      _ ≤ b.width * b.height := Nat.le_mul_of_pos_right _ hh
  refine ⟨shifted.setCell col 0 Cell.empty, hb', ?_, ?_, ?_, ?_, ?_, ?_⟩
  · rw [Board.width_setCell, hw]
  · rw [Board.height_setCell, hht]
  · unfold Board.WF
    rw [Board.length_setCell, Board.width_setCell, Board.height_setCell, hlen, hw, hht]
    exact hwf
  · exact shifted.get_setCell_self _ hidx0
  · intro r hr
    have : (shifted.setCell col 0 Cell.empty).get col (r + 1) = shifted.get col (r + 1) :=
      shifted.get_setCell_ne _ hwcol hwcol (fun hand => by omega)
    rw [this, h2 r hr]
  · intro c hc hne row
    have hc' : c < shifted.width := by rw [hw]; exact hc
    have : (shifted.setCell col 0 Cell.empty).get c row = shifted.get c row :=
      shifted.get_setCell_ne _ hc' hwcol (fun hand => hne hand.1)
    rw [this, h1 c hc hne row]

end ConnectFourLogic

namespace ConnectFourLogic

theorem Board.can_insert_isOk_iff (b : Board) (col : Nat) :
    (b.can_insert col).isOk ↔ ∃ row, row < b.height ∧ b.get col row = Cell.empty := by
  unfold Board.can_insert
  rcases hf : (List.range b.height).reverse.find?
      (fun row => b.get col row = Cell.empty) with _ | row
  · rw [List.find?_eq_none] at hf
    refine iff_of_false (by simp [Except.isOk, Except.toBool]) ?_
    rintro ⟨row, hrow, hget⟩
    have := hf row (by simp [List.mem_reverse, List.mem_range, hrow])
    simp [hget] at this
  · have hmem := List.mem_of_find?_eq_some hf
    have hpred := List.find?_some hf
    rw [List.mem_reverse, List.mem_range] at hmem
    simp only [decide_eq_true_eq] at hpred
    exact iff_of_true (by simp [Except.isOk, Except.toBool]) ⟨row, hmem, hpred⟩

theorem Board.can_pop_isOk_iff (b : Board) (col : Nat) (p : Player) :
    (b.can_pop col p).isOk ↔ b.get col (b.height - 1) = Cell.player p := by
  rw [← b.can_pop_ok_iff col p]
  unfold Board.can_pop
  rcases b.get col (b.height - 1) with _ | q
  · simp [Except.isOk, Except.toBool]
  · by_cases h : q = p <;> simp [h, Except.isOk, Except.toBool]

theorem Board.insert_of_can_insert (b : Board) (col : Nat) (p : Player)
    (h : (b.can_insert col).isOk) :
    ∃ b', b.insert col p = .ok b' ∧ b'.width = b.width ∧ b'.height = b.height ∧
      b'.cells.length = b.cells.length := by
  unfold Board.insert
  rcases hci : b.can_insert col with e | row
  · rw [hci] at h
    simp [Except.isOk, Except.toBool] at h
  · exact ⟨_, rfl, rfl, rfl, b.length_setCell _ _ _⟩

theorem Board.pop_of_can_pop (b : Board) (col : Nat) (p : Player)
    (h : (b.can_pop col p).isOk) :
    ∃ b', b.pop col p = .ok b' ∧ b'.width = b.width ∧ b'.height = b.height ∧
      b'.cells.length = b.cells.length := by
  unfold Board.pop
  rcases hcp : b.can_pop col p with e | u
  · rw [hcp] at h
    simp [Except.isOk, Except.toBool] at h
  · obtain ⟨hlen, hw, hht⟩ := b.popShift_structure col (List.range (b.height - 1)).reverse
    refine ⟨_, rfl, ?_, ?_, ?_⟩
    · rw [Board.width_setCell, hw]
    · rw [Board.height_setCell, hht]
    · rw [Board.length_setCell, hlen]

theorem mem_get_legal_moves {b : Board} {p : Player} {m : Move} :
    m ∈ get_legal_moves b p ↔
      m.column < b.width ∧
        ((m.move_type = MoveType.insert ∧ (b.can_insert m.column).isOk) ∨
          (m.move_type = MoveType.pop ∧ (b.can_pop m.column p).isOk)) := by
  constructor
  · intro hm
    simp only [get_legal_moves, List.mem_flatMap, List.mem_range] at hm
    obtain ⟨col, hcol, hmem⟩ := hm
    rw [List.mem_append] at hmem
    rcases hmem with h | h
    · split_ifs at h with hc
      · rw [List.mem_singleton] at h
        subst h
        exact ⟨hcol, Or.inl ⟨rfl, hc⟩⟩
      · exact absurd h (List.not_mem_nil m)
    · split_ifs at h with hc
      · rw [List.mem_singleton] at h
        subst h
        exact ⟨hcol, Or.inr ⟨rfl, hc⟩⟩
      · exact absurd h (List.not_mem_nil m)
  · rintro ⟨hcol, ⟨hty, hc⟩ | ⟨hty, hc⟩⟩ <;>
      obtain ⟨ty, col⟩ := m <;> dsimp at hty hcol hc <;> subst hty <;>
      simp only [get_legal_moves, List.mem_flatMap, List.mem_range] <;>
      refine ⟨col, hcol, ?_⟩ <;> rw [List.mem_append]
    · exact Or.inl (by rw [if_pos hc]; exact List.mem_singleton.mpr rfl)
    · exact Or.inr (by rw [if_pos hc]; exact List.mem_singleton.mpr rfl)

end ConnectFourLogic

namespace MctsE2E

open ConnectFourLogic
open Mcts (SimulationResult Rng)

theorem applyMoveB_of_legal {b : Board} {p : Player} {m : Move}
    (hm : m ∈ get_legal_moves b p) :
    ∃ b', applyMoveB b p m = some b' ∧ b'.width = b.width ∧
      b'.height = b.height ∧ b'.cells.length = b.cells.length := by
  rw [mem_get_legal_moves] at hm
  obtain ⟨hcol, hcase⟩ := hm
  rcases hcase with ⟨hty, hc⟩ | ⟨hty, hc⟩
  · obtain ⟨b', hb', hw, hh, hl⟩ := b.insert_of_can_insert m.column p hc
    exact ⟨b', by simp [applyMoveB, hty, hb'], hw, hh, hl⟩
  · obtain ⟨b', hb', hw, hh, hl⟩ := b.pop_of_can_pop m.column p hc
    exact ⟨b', by simp [applyMoveB, hty, hb'], hw, hh, hl⟩

theorem scanWin_total {b : Board} {cur : Player} {moves : List Move}
    (hall : ∀ m ∈ moves, ∃ b', applyMoveB b cur m = some b') :
    ∃ x, scanWin b cur moves = some x := by
  induction moves with
  | nil => exact ⟨none, rfl⟩
  | cons m0 rest ih =>
    obtain ⟨b0, hb0⟩ := hall m0 (List.mem_cons_self m0 rest)
    by_cases hw0 : is_terminal_position b0 = .isTerminalWin cur
    · exact ⟨some b0, by simp [scanWin, hb0, hw0]⟩
    · obtain ⟨x, hx⟩ := ih fun m hm => hall m (List.mem_cons_of_mem _ hm)
      exact ⟨x, by simp [scanWin, hb0, hw0, hx]⟩

theorem scanWin_spec {b : Board} {cur : Player} {moves : List Move}
    (hall : ∀ m ∈ moves, ∃ b', applyMoveB b cur m = some b')
    (hwin : ∃ m ∈ moves, ∃ b', applyMoveB b cur m = some b' ∧
      is_terminal_position b' = .isTerminalWin cur) :
    ∃ b', scanWin b cur moves = some (some b') ∧
      is_terminal_position b' = .isTerminalWin cur := by
  induction moves with
  | nil =>
    obtain ⟨m, hm, -⟩ := hwin
    exact absurd hm (List.not_mem_nil m)
  | cons m0 rest ih =>
    obtain ⟨b0, hb0⟩ := hall m0 (List.mem_cons_self m0 rest)
    by_cases hw0 : is_terminal_position b0 = .isTerminalWin cur
    · exact ⟨b0, by simp [scanWin, hb0, hw0], hw0⟩
    · have hwin' : ∃ m ∈ rest, ∃ b', applyMoveB b cur m = some b' ∧
          is_terminal_position b' = .isTerminalWin cur := by
        obtain ⟨m, hm, b', hb', hbw⟩ := hwin
        rcases List.mem_cons.mp hm with rfl | hm'
        · rw [hb0] at hb'
          injection hb' with h
          subst h
          exact absurd hbw hw0
        · exact ⟨m, hm', b', hb', hbw⟩
      obtain ⟨b', hsc, hbw⟩ := ih (fun m hm => hall m (List.mem_cons_of_mem _ hm)) hwin'
      exact ⟨b', by simp [scanWin, hb0, hw0, hsc], hbw⟩

/-- claim C6 — for every non-terminal Connect Four state whose mover has an
immediate four-in-a-row among its legal moves, a single playout with
`max_depth ≥ 1` takes the winning move and returns `Win` exactly when the
mover is the perspective player (`who_am_i`), `NotWin` otherwise; the
generator is not consumed. -/
theorem claim_playout_win_capture (s : State) (d : Int) (rng : Rng)
    (hterm : s.is_terminal = false) (hd : 1 ≤ d)
    (hwin : ∃ m ∈ get_legal_moves s.board s.turn, ∃ b',
      applyMoveB s.board s.turn m = some b' ∧
        is_terminal_position b' = .isTerminalWin s.turn) :
    playout s d rng =
      some ((if s.turn = s.who_am_i then SimulationResult.win else SimulationResult.notWin),
        rng) := by
  have hnt : is_terminal_position s.board = .isNotTerminal := by
    unfold State.is_terminal at hterm
    simpa using hterm
  have hk : ∃ k, d.toNat = k + 1 := ⟨d.toNat - 1, by omega⟩
  obtain ⟨k, hk⟩ := hk
  have hne : get_legal_moves s.board s.turn ≠ [] := by
    obtain ⟨m, hm, -⟩ := hwin
    exact fun h => absurd (h ▸ hm) (List.not_mem_nil m)
  have hall : ∀ m ∈ get_legal_moves s.board s.turn,
      ∃ b', applyMoveB s.board s.turn m = some b' := by
    intro m hm
    obtain ⟨b', hb', -⟩ := applyMoveB_of_legal hm
    exact ⟨b', hb'⟩
  obtain ⟨b', hsc, hbw⟩ := scanWin_spec hall hwin
  have hloop : playoutLoop s.board s.turn rng d.toNat = some (b', rng) := by
    rw [hk]
    simp only [playoutLoop]
    rw [if_neg (by simp [hnt])]
    rw [if_neg hne, hsc]
  unfold playout
  rw [hloop]
  dsimp only
  rw [hbw]
  by_cases hEq : s.turn = s.who_am_i
  · rw [if_pos (by rw [hEq]), if_pos hEq]
  · rw [if_neg (by simpa using fun h => hEq h), if_neg hEq]

/-- Witness for claim C6: on the 4×1 board `1 1 1 .` with Player 1 to move and
as perspective, a depth-1 playout returns `Win` without touching the
generator. -/
theorem claim_playout_win_capture_witness :
    playout
        ⟨⟨[Cell.player .player1, Cell.player .player1, Cell.player .player1, Cell.empty],
          4, 1⟩, .player1, .player1⟩ 1 ⟨fun _ => 0, 0⟩ =
      some (SimulationResult.win, ⟨fun _ => 0, 0⟩) := by
  have h := claim_playout_win_capture
    ⟨⟨[Cell.player .player1, Cell.player .player1, Cell.player .player1, Cell.empty],
      4, 1⟩, .player1, .player1⟩ 1 ⟨fun _ => 0, 0⟩ (by decide) (by decide)
    ⟨Move.mk MoveType.insert 3, by decide,
      ⟨⟨[Cell.player .player1, Cell.player .player1, Cell.player .player1,
          Cell.player .player1], 4, 1⟩, by decide, by decide⟩⟩
  simpa using h

end MctsE2E

namespace Mcts

theorem getD_set_self {α : Type} [Inhabited α] (l : List α) (i : Nat) (v : α)
    (h : i < l.length) : (l.set i v).getD i default = v := by
  simp [List.getD_eq_getElem?_getD, List.getElem?_set_self h]

theorem getD_set_ne {α : Type} [Inhabited α] (l : List α) {i j : Nat} (v : α)
    (h : i ≠ j) : (l.set i v).getD j default = l.getD j default := by
  simp [List.getD_eq_getElem?_getD, List.getElem?_set_ne h]

theorem getD_append_left {α : Type} [Inhabited α] (l₁ l₂ : List α) (j : Nat)
    (h : j < l₁.length) : (l₁ ++ l₂).getD j default = l₁.getD j default := by
  simp [List.getD_eq_getElem?_getD, List.getElem?_append_left h]

theorem getD_concat_self {α : Type} [Inhabited α] (l : List α) (x : α) :
    (l ++ [x]).getD l.length default = x := by
  simp [List.getD_eq_getElem?_getD, List.getElem?_concat_length]

theorem getD_of_le {α : Type} [Inhabited α] (l : List α) (j : Nat)
    (h : l.length ≤ j) : l.getD j default = default := by
  simp [List.getD_eq_getElem?_getD, List.getElem?_eq_none h]

theorem nd_of_le {S A : Type} (t : MctsTree S A) (j : Nat)
    (h : t.nodes.length ≤ j) : nd t j = default :=
  getD_of_le _ _ h

theorem add_child_key {S A : Type} [DecidableEq A] (t : MctsTree S A) (p : Nat)
    (a : A) : (t.add_child p a).2 = t.nodes.length := rfl

theorem add_child_length {S A : Type} [DecidableEq A] (t : MctsTree S A) (p : Nat)
    (a : A) : (t.add_child p a).1.nodes.length = t.nodes.length + 1 := by
  simp [MctsTree.add_child]

theorem add_child_root {S A : Type} [DecidableEq A] (t : MctsTree S A) (p : Nat)
    (a : A) : (t.add_child p a).1.root = t.root := rfl

theorem add_child_root_state {S A : Type} [DecidableEq A] (t : MctsTree S A) (p : Nat)
    (a : A) : (t.add_child p a).1.root_state = t.root_state := rfl

theorem add_child_nd_parent {S A : Type} [DecidableEq A] (t : MctsTree S A)
    {p : Nat} (a : A) (hp : p < t.nodes.length) :
    nd (t.add_child p a).1 p =
      { nd t p with children := insertChild (nd t p).children a t.nodes.length } := by
  unfold MctsTree.add_child nd
  dsimp only
  rw [getD_set_self _ _ _ (by simp; omega),
    getD_append_left _ _ _ hp]

theorem add_child_nd_other {S A : Type} [DecidableEq A] (t : MctsTree S A)
    {p : Nat} (a : A) {j : Nat} (hj : j ≠ p) :
    nd (t.add_child p a).1 j =
      if j = t.nodes.length then MctsNode.new (some p) else nd t j := by
  unfold MctsTree.add_child nd
  dsimp only
  rw [getD_set_ne _ _ (Ne.symm hj)]
  rcases Nat.lt_trichotomy j t.nodes.length with h | h | h
  · rw [if_neg (by omega), getD_append_left _ _ _ h]
  · subst h
    rw [if_pos rfl, getD_concat_self]
  · rw [if_neg (by omega), getD_of_le _ _ (by simp; omega), getD_of_le _ _ (by omega)]

theorem insertChild_of_not_mem {A : Type} [DecidableEq A] {l : List (A × Nat)}
    {a : A} (c : Nat) (h : a ∉ l.map Prod.fst) : insertChild l a c = l ++ [(a, c)] := by
  unfold insertChild
  rw [if_neg]
  intro hany
  rw [List.any_eq_true] at hany
  obtain ⟨pair, hmem, hpa⟩ := hany
  simp only [decide_eq_true_eq] at hpa
  exact h (hpa ▸ List.mem_map_of_mem Prod.fst hmem)

/-- The `for action in &actions { tree.add_child(node_key, *action) }` loop of
`expand`, fully characterised for a batch of fresh distinct actions: the
parent's children get one entry per action keyed by consecutive fresh handles,
the new nodes are zeroed with the right parent, and every other node is
untouched. -/
theorem addChildren_spec {S A : Type} [DecidableEq A] (as : List A)
    (t : MctsTree S A) (p : Nat) (hp : p < t.nodes.length) (hnd : as.Nodup)
    (hfresh : ∀ a ∈ as, a ∉ (nd t p).children.map Prod.fst) :
    (as.foldl (fun tt a => (tt.add_child p a).1) t).nodes.length =
        t.nodes.length + as.length ∧
      (as.foldl (fun tt a => (tt.add_child p a).1) t).root = t.root ∧
      (as.foldl (fun tt a => (tt.add_child p a).1) t).root_state = t.root_state ∧
      (nd (as.foldl (fun tt a => (tt.add_child p a).1) t) p) =
        { nd t p with
            children := (nd t p).children ++
              (as.enumFrom t.nodes.length).map (fun ia => (ia.2, ia.1)) } ∧
      (∀ j, j ≠ p → j < t.nodes.length →
        nd (as.foldl (fun tt a => (tt.add_child p a).1) t) j = nd t j) ∧
      (∀ i, i < as.length →
        nd (as.foldl (fun tt a => (tt.add_child p a).1) t) (t.nodes.length + i) =
          MctsNode.new (some p)) := by
  induction as generalizing t with
  | nil => exact ⟨by simp, rfl, rfl, by simp [List.enumFrom], fun _ _ _ => rfl,
      fun i hi => absurd hi (by simp)⟩
  | cons a as ih =>
    simp only [List.foldl_cons]
    set t₁ := (t.add_child p a).1 with ht₁
    have hlen₁ : t₁.nodes.length = t.nodes.length + 1 := add_child_length t p a
    have hp₁ : p < t₁.nodes.length := by omega
    have hnd₁ : nd t₁ p =
        { nd t p with children := (nd t p).children ++ [(a, t.nodes.length)] } := by
      rw [ht₁, add_child_nd_parent t a hp,
        insertChild_of_not_mem _ (hfresh a (List.mem_cons_self a as))]
    have hfresh₁ : ∀ a' ∈ as, a' ∉ (nd t₁ p).children.map Prod.fst := by
      intro a' ha'
      rw [hnd₁]
      simp only [List.map_append, List.mem_append, List.map_cons, List.map_nil,
        List.mem_singleton]
      rintro (h | h)
      · exact hfresh a' (List.mem_cons_of_mem _ ha') h
      · exact (List.nodup_cons.mp hnd).1 (h ▸ ha')
    obtain ⟨ih1, ih2, ih3, ih4, ih5, ih6⟩ :=
      ih t₁ hp₁ (List.nodup_cons.mp hnd).2 hfresh₁
    refine ⟨by rw [ih1, hlen₁, List.length_cons]; omega, by rw [ih2, ht₁, add_child_root],
      by rw [ih3, ht₁, add_child_root_state], ?_, ?_, ?_⟩
    · rw [ih4, hnd₁, hlen₁]
      simp [List.append_assoc]
    · intro j hj hjlen
      rw [ih5 j hj (by omega), ht₁, add_child_nd_other t a hj, if_neg (by omega)]
    · intro i hi
      cases i with
      | zero =>
        rw [Nat.add_zero, ih5 (t.nodes.length) (by omega) (by omega), ht₁,
          add_child_nd_other t a (by omega), if_pos rfl]
      | succ i =>
        have := ih6 i (by simpa using hi)
        rw [hlen₁] at this
        rw [← this]
        congr 1
        omega

theorem lookupChild_of_mem {A : Type} [DecidableEq A] {l : List (A × Nat)}
    {a : A} {c : Nat} (hnd : (l.map Prod.fst).Nodup) (h : (a, c) ∈ l) :
    lookupChild l a = some c := by
  induction l with
  | nil => exact absurd h (List.not_mem_nil _)
  | cons pair rest ih =>
    rcases List.mem_cons.mp h with rfl | hmem
    · simp [lookupChild, List.find?]
    · have hne : pair.1 ≠ a := by
        intro hEq
        have : a ∈ rest.map Prod.fst := List.mem_map_of_mem Prod.fst hmem
        rw [List.map_cons, List.nodup_cons] at hnd
        exact hnd.1 (hEq ▸ this)
      have := ih (by rw [List.map_cons, List.nodup_cons] at hnd; exact hnd.2) hmem
      simp only [lookupChild, List.find?] at this ⊢
      rw [show (decide (pair.1 = a)) = false from decide_eq_false hne]
      exact this

theorem choose_mem {α : Type} (l : List α) (r : Rng) (h : l ≠ []) :
    ∃ x r', choose l r = (some x, r') ∧ x ∈ l := by
  rcases l with _ | ⟨x, rest⟩
  · exact absurd rfl h
  · refine ⟨_, _, rfl, ?_⟩
    have hlt : r.seq r.idx % (x :: rest).length < (x :: rest).length :=
      Nat.mod_lt _ (by simp)
    rw [List.getD_eq_getElem?_getD, List.getElem?_eq_getElem hlt]
    exact List.getElem_mem hlt

end Mcts

namespace Mcts

theorem winCount_bounds (results : List SimulationResult) :
    0 ≤ winCount results ∧ winCount results ≤ results.length := by
  induction results with
  | nil => simp [winCount]
  | cons r rest ih =>
    cases r <;> simp only [winCount, List.length_cons] <;> push_cast <;> omega

theorem bpNode_eq {A : Type} (results : List SimulationResult) (n : MctsNode A) :
    bpNode results n =
      { n with visits := n.visits + results.length, wins := n.wins + winCount results } := by
  induction results generalizing n with
  | nil => simp [bpNode, winCount]
  | cons r rest ih =>
    cases r with
    | win =>
      have step : bpNode (.win :: rest) n =
          bpNode rest { n with visits := n.visits + 1, wins := n.wins + 1 } := rfl
      rw [step, ih]
      simp only [winCount, List.length_cons, MctsNode.mk.injEq, true_and]
      constructor <;> push_cast <;> ring
    | notWin =>
      have step : bpNode (.notWin :: rest) n =
          bpNode rest { n with visits := n.visits + 1, wins := n.wins + 0 } := rfl
      rw [step, ih]
      simp only [winCount, List.length_cons, MctsNode.mk.injEq, true_and]
      constructor <;> push_cast <;> ring

theorem bpNode_parent {A : Type} (results : List SimulationResult) (n : MctsNode A) :
    (bpNode results n).parent = n.parent := by rw [bpNode_eq]

theorem bpNode_children {A : Type} (results : List SimulationResult) (n : MctsNode A) :
    (bpNode results n).children = n.children := by rw [bpNode_eq]

theorem OnPath.trans {S A : Type} {t : MctsTree S A} {a b c : Nat}
    (h1 : OnPath t b c) (h2 : OnPath t a b) : OnPath t a c := by
  induction h1 with
  | refl => exact h2
  | step _ hp ih => exact OnPath.step ih hp

theorem OnPath_le {S A : Type} {t : MctsTree S A} {s i : Nat}
    (hplt : ∀ j, j < t.nodes.length → ∀ p, (nd t j).parent = some p → p < j)
    (hs : s < t.nodes.length) (h : OnPath t s i) : i ≤ s ∧ i < t.nodes.length := by
  induction h with
  | refl => exact ⟨le_refl s, hs⟩
  | step hj hp ih =>
    have := hplt _ ih.2 _ hp
    exact ⟨by omega, by omega⟩

theorem OnPath_congr {S A : Type} {t t' : MctsTree S A} {s i : Nat}
    (hpar : ∀ j, (nd t' j).parent = (nd t j).parent) (h : OnPath t s i) :
    OnPath t' s i := by
  induction h with
  | refl => exact OnPath.refl
  | step hj hp ih => exact OnPath.step ih ((hpar _).trans hp)

theorem OnPath_of_parent_none {S A : Type} {t : MctsTree S A} {s i : Nat}
    (hnone : (nd t s).parent = none) (h : OnPath t s i) : i = s := by
  induction h with
  | refl => rfl
  | step hj hp ih =>
    subst ih
    rw [hnone] at hp
    exact Option.noConfusion hp

theorem OnPath_parent_iff {S A : Type} {t : MctsTree S A} {s p i : Nat}
    (hp : (nd t s).parent = some p) : OnPath t s i ↔ i = s ∨ OnPath t p i := by
  constructor
  · intro h
    induction h with
    | refl => exact Or.inl rfl
    | step hj hq ih =>
      rcases ih with rfl | hpj
      · rw [hp] at hq
        injection hq with hq
        subst hq
        exact Or.inr OnPath.refl
      · exact Or.inr (OnPath.step hpj hq)
  · rintro (rfl | h)
    · exact OnPath.refl
    · exact h.trans (OnPath.step OnPath.refl hp)

theorem root_onPath {S A : Type} {t : MctsTree S A}
    (hplt : ∀ j, j < t.nodes.length → ∀ p, (nd t j).parent = some p → p < j)
    (hnr : ∀ j, j < t.nodes.length → j ≠ t.root → (nd t j).parent ≠ none) :
    ∀ s, s < t.nodes.length → OnPath t s t.root := by
  intro s
  induction s using Nat.strong_induction_on with
  | _ s ih =>
    intro hs
    rcases hpar : (nd t s).parent with _ | p
    · by_cases hroot : s = t.root
      · subst hroot
        exact OnPath.refl
      · exact absurd hpar (hnr s hs hroot)
    · have hps := hplt s hs p hpar
      exact (ih p hps (by omega)).trans (OnPath.step OnPath.refl hpar)

/-- Full behaviour of the fueled back-propagation loop: with a strictly
decreasing parent map and enough fuel it succeeds, only counters change, the
nodes on the parent path from the start gain `results.length` visits and
`winCount results` wins, and every other node is untouched. -/
theorem bpLoop_spec {S A : Type} (results : List SimulationResult) :
    ∀ (fuel : Nat) (t : MctsTree S A) (start : Nat),
      (∀ j, j < t.nodes.length → ∀ p, (nd t j).parent = some p → p < j) →
      start < t.nodes.length → start + 1 ≤ fuel →
      ∃ t', bpLoop results t fuel start = some t' ∧
        t'.nodes.length = t.nodes.length ∧ t'.root = t.root ∧
        t'.root_state = t.root_state ∧
        (∀ i, OnPath t start i → nd t' i = bpNode results (nd t i)) ∧
        (∀ i, ¬ OnPath t start i → nd t' i = nd t i) := by
  intro fuel
  induction fuel with
  | zero => intro t start _ _ hfuel; omega
  | succ fuel ih =>
    intro t start hplt hstart hfuel
    set t₁ : MctsTree S A :=
      { t with nodes := t.nodes.set start (bpNode results (nd t start)) } with ht₁
    have hnd₁self : nd t₁ start = bpNode results (nd t start) := by
      show (t.nodes.set start _).getD start default = _
      exact getD_set_self _ _ _ hstart
    have hnd₁ne : ∀ i, i ≠ start → nd t₁ i = nd t i := by
      intro i hi
      show (t.nodes.set start _).getD i default = _
      exact getD_set_ne _ _ (fun h => hi h.symm)
    have hlen₁ : t₁.nodes.length = t.nodes.length := by simp [ht₁]
    have hpar₁ : ∀ j, (nd t₁ j).parent = (nd t j).parent := by
      intro j
      by_cases hEq : j = start
      · subst hEq
        rw [hnd₁self, bpNode_parent]
      · rw [hnd₁ne j hEq]
    rcases hpar : (nd t start).parent with _ | p
    · refine ⟨t₁, ?_, hlen₁, rfl, rfl, ?_, ?_⟩
      · show (match (nd t start).parent with
          | none => some { t with nodes := t.nodes.set start (bpNode results (nd t start)) }
          | some p => bpLoop results
              { t with nodes := t.nodes.set start (bpNode results (nd t start)) } fuel p) =
            some t₁
        rw [hpar]
      · intro i hi
        have := OnPath_of_parent_none hpar hi
        subst this
        exact hnd₁self
      · intro i hi
        have : i ≠ start := fun h => hi (h ▸ OnPath.refl)
        exact hnd₁ne i this
    · have hplt₁ : ∀ j, j < t₁.nodes.length → ∀ q, (nd t₁ j).parent = some q → q < j := by
        intro j hj q hq
        rw [hpar₁] at hq
        exact hplt j (by omega) q hq
      have hp : p < start := hplt start hstart p hpar
      obtain ⟨t', hbp, hlen', hroot', hrs', hon', hoff'⟩ :=
        ih t₁ p hplt₁ (by omega) (by omega)
      refine ⟨t', ?_, by omega, hroot', hrs', ?_, ?_⟩
      · show (match (nd t start).parent with
          | none => some { t with nodes := t.nodes.set start (bpNode results (nd t start)) }
          | some p => bpLoop results
              { t with nodes := t.nodes.set start (bpNode results (nd t start)) } fuel p) =
            some t'
        rw [hpar]
        exact hbp
      · intro i hi
        rcases (OnPath_parent_iff hpar).mp hi with rfl | hip
        · have hnot : ¬ OnPath t₁ p i := by
            intro hcon
            have := OnPath_le hplt₁ (by omega) hcon
            omega
          rw [hoff' i hnot]
          exact hnd₁self
        · have hile : i ≤ p := (OnPath_le hplt (by omega) hip).1
          rw [hon' i (OnPath_congr hpar₁ hip), hnd₁ne i (by omega)]
      · intro i hi
        have hins : i ≠ start := fun h => hi (h ▸ OnPath.refl)
        have hinp : ¬ OnPath t₁ p i := by
          intro hcon
          have := OnPath_congr (fun j => (hpar₁ j).symm) hcon
          exact hi ((OnPath_parent_iff hpar).mpr (Or.inr this))
        rw [hoff' i hinp]
        exact hnd₁ne i hins

end Mcts

namespace Mcts

theorem uct_select_of_empty {S A β : Type} [DecidableEq A] [LinearOrder β]
    (score : Int → Int → Int → β) (t : MctsTree S A) (nk : Nat)
    (h : (nd t nk).children = []) :
    uct_select score t nk = ⟨nk, none, true⟩ := by
  show (if (nd t nk).children.isEmpty then (⟨nk, none, true⟩ : UctSelectResult A)
      else
        match maxByLast ((nd t nk).children.map fun ac =>
            (ac.1, ac.2, score (nd t ac.2).visits (nd t ac.2).wins (nd t nk).visits)) with
        | some x => ⟨x.2.1, some x.1, false⟩
        | none => ⟨nk, none, true⟩) = ⟨nk, none, true⟩
  rw [h]
  rfl

theorem foldlMax_some {A β : Type} [LinearOrder β] :
    ∀ (xs : List (A × Nat × β)) (y : A × Nat × β),
      ∃ z, xs.foldl
          (fun acc x =>
            match acc with
            | none => some x
            | some y => if y.2.2 ≤ x.2.2 then some x else some y)
          (some y) = some z ∧ (z = y ∨ z ∈ xs) := by
  intro xs
  induction xs with
  | nil => exact fun y => ⟨y, rfl, Or.inl rfl⟩
  | cons x xs ih =>
    intro y
    simp only [List.foldl_cons]
    by_cases hc : y.2.2 ≤ x.2.2
    · obtain ⟨z, hz, hmem⟩ := ih x
      refine ⟨z, ?_, ?_⟩
      · show xs.foldl _ (if y.2.2 ≤ x.2.2 then some x else some y) = some z
        rw [if_pos hc]
        exact hz
      · rcases hmem with rfl | h
        · exact Or.inr (List.mem_cons_self _ _)
        · exact Or.inr (List.mem_cons_of_mem _ h)
    · obtain ⟨z, hz, hmem⟩ := ih y
      refine ⟨z, ?_, ?_⟩
      · show xs.foldl _ (if y.2.2 ≤ x.2.2 then some x else some y) = some z
        rw [if_neg hc]
        exact hz
      · rcases hmem with rfl | h
        · exact Or.inl rfl
        · exact Or.inr (List.mem_cons_of_mem _ h)

theorem maxByLast_mem {A β : Type} [LinearOrder β] (l : List (A × Nat × β))
    (h : l ≠ []) : ∃ x ∈ l, maxByLast l = some x := by
  rcases l with _ | ⟨x, xs⟩
  · exact absurd rfl h
  · obtain ⟨z, hz, hmem⟩ := foldlMax_some xs x
    refine ⟨z, ?_, ?_⟩
    · rcases hmem with rfl | h'
      · exact List.mem_cons_self _ _
      · exact List.mem_cons_of_mem _ h'
    · unfold maxByLast
      simp only [List.foldl_cons]
      exact hz

theorem uct_select_of_nonempty {S A β : Type} [DecidableEq A] [LinearOrder β]
    (score : Int → Int → Int → β) (t : MctsTree S A) (nk : Nat)
    (h : (nd t nk).children ≠ []) :
    ∃ a c, uct_select score t nk = ⟨c, some a, false⟩ ∧ (a, c) ∈ (nd t nk).children := by
  have hisEmpty : (nd t nk).children.isEmpty = false := by
    rcases hcc : (nd t nk).children with _ | _
    · exact absurd hcc h
    · rfl
  have hmapne : ((nd t nk).children.map fun ac =>
      (ac.1, ac.2, score (nd t ac.2).visits (nd t ac.2).wins (nd t nk).visits)) ≠ [] := by
    intro hcon
    exact h (List.map_eq_nil_iff.mp hcon)
  obtain ⟨x, hxmem, hmax⟩ := maxByLast_mem _ hmapne
  obtain ⟨ac, hac, hfn⟩ := List.mem_map.mp hxmem
  refine ⟨ac.1, ac.2, ?_, by simpa using hac⟩
  show (if (nd t nk).children.isEmpty then (⟨nk, none, true⟩ : UctSelectResult A)
      else
        match maxByLast ((nd t nk).children.map fun ac =>
            (ac.1, ac.2, score (nd t ac.2).visits (nd t ac.2).wins (nd t nk).visits)) with
        | some x => ⟨x.2.1, some x.1, false⟩
        | none => ⟨nk, none, true⟩) = ⟨ac.2, some ac.1, false⟩
  rw [hisEmpty, if_neg Bool.false_ne_true, hmax, ← hfn]

theorem selectLoop_some_inv {S A β : Type} [DecidableEq A] [LinearOrder β]
    (g : Game S A) (score : Int → Int → Int → β) (t : MctsTree S A)
    (hcb : ∀ i, i < t.nodes.length → ∀ a c, (a, c) ∈ (nd t i).children →
      c < t.nodes.length) :
    ∀ (fuel nk : Nat) (s : S) (nk' : Nat) (s' : S), nk < t.nodes.length →
      selectLoop g score t fuel nk s = some (nk', s') →
      nk' < t.nodes.length ∧ (nd t nk').children = [] := by
  intro fuel
  induction fuel with
  | zero => exact fun nk s nk' s' _ hsel => Option.noConfusion hsel
  | succ fuel ih =>
    intro nk s nk' s' hnk hsel
    rw [show selectLoop g score t (fuel + 1) nk s =
        (if (uct_select score t nk).finished then some (nk, s)
          else
            match (uct_select score t nk).action with
            | none => none
            | some a =>
              match g.get_next_state s a with
              | none => none
              | some state' => selectLoop g score t fuel (uct_select score t nk).node state')
        from rfl] at hsel
    by_cases hch : (nd t nk).children = []
    · rw [uct_select_of_empty score t nk hch] at hsel
      rw [if_pos rfl] at hsel
      simp only [Option.some.injEq, Prod.mk.injEq] at hsel
      obtain ⟨rfl, rfl⟩ := hsel
      exact ⟨hnk, hch⟩
    · obtain ⟨a, c, hselres, hmem⟩ := uct_select_of_nonempty score t nk hch
      rw [hselres] at hsel
      rw [if_neg Bool.false_ne_true] at hsel
      dsimp only at hsel
      rcases hnext : g.get_next_state s a with _ | s₁
      · rw [hnext] at hsel
        exact Option.noConfusion hsel
      · rw [hnext] at hsel
        exact ih c s₁ nk' s' (hcb nk hnk a c hmem) hsel

end Mcts

namespace Mcts

/-- Success of the descent loop: under the tree/game invariants, `selectLoop`
with enough fuel reaches a childless node together with its replayed state. -/
theorem selectLoop_ok {S A β : Type} [DecidableEq A] [LinearOrder β]
    (g : Game S A) (score : Int → Int → Int → β) (t : MctsTree S A) (P : S → Prop)
    (hgg : GoodGame g P) (hri : ReplayInv g P t)
    (hcb : ∀ i, i < t.nodes.length → ∀ a c, (a, c) ∈ (nd t i).children →
      i < c ∧ c < t.nodes.length) :
    ∀ (fuel nk : Nat) (s : S), ReplayAt g t nk s → nk < t.nodes.length →
      t.nodes.length - nk ≤ fuel →
      ∃ nk' s', selectLoop g score t fuel nk s = some (nk', s') ∧
        ReplayAt g t nk' s' ∧ (nd t nk').children = [] ∧ nk' < t.nodes.length ∧
        (nk' = nk ∨ (nd t nk).children ≠ []) := by
  intro fuel
  induction fuel with
  | zero => intro nk s _ hnk hfuel; omega
  | succ fuel ih =>
    intro nk s hrep hnk hfuel
    rw [show selectLoop g score t (fuel + 1) nk s =
        (if (uct_select score t nk).finished then some (nk, s)
          else
            match (uct_select score t nk).action with
            | none => none
            | some a =>
              match g.get_next_state s a with
              | none => none
              | some state' => selectLoop g score t fuel (uct_select score t nk).node state')
        from rfl]
    by_cases hch : (nd t nk).children = []
    · rw [uct_select_of_empty score t nk hch, if_pos rfl]
      exact ⟨nk, s, rfl, hrep, hch, hnk, Or.inl rfl⟩
    · obtain ⟨a, c, hselres, hmem⟩ := uct_select_of_nonempty score t nk hch
      rw [hselres, if_neg Bool.false_ne_true]
      dsimp only
      have hkeys := (hri nk s hrep).2 hch
      have hamem : a ∈ g.get_actions s := by
        rw [← hkeys.2]
        exact List.mem_map_of_mem Prod.fst hmem
      obtain ⟨s₁, hs₁, hPs₁⟩ := hgg.next_ok s a (hri nk s hrep).1 hamem
      rw [hs₁]
      have hrep₁ : ReplayAt g t c s₁ := ReplayAt.child hrep hmem hs₁
      obtain ⟨hcgt, hclt⟩ := hcb nk hnk a c hmem
      obtain ⟨nk', s', hres, hr1, hr2, hr3, -⟩ := ih c s₁ hrep₁ hclt (by omega)
      exact ⟨nk', s', hres, hr1, hr2, hr3, Or.inr hch⟩

/-- Success and full description of `expand` on a childless non-terminal node
whose action list is nonempty, duplicate-free and has working successors: all
actions become children, and a member child with its successor state is
returned alongside the grown tree. -/
theorem expand_ok {S A : Type} [DecidableEq A] (g : Game S A) (t : MctsTree S A)
    (rng : Rng) (h : Nat) (s : S)
    (hterm : g.is_terminal s = false) (hp : h < t.nodes.length)
    (hempty : (nd t h).children = [])
    (hnodup : (g.get_actions s).Nodup) (hne : g.get_actions s ≠ [])
    (hnext : ∀ a ∈ g.get_actions s, ∃ s', g.get_next_state s a = some s') :
    ∃ a c s' rng',
      Mcts.expand g t rng h s = some (c, s',
        (g.get_actions s).foldl (fun tt a => (tt.add_child h a).1) t, rng') ∧
      a ∈ g.get_actions s ∧ g.get_next_state s a = some s' ∧
      (a, c) ∈ (nd ((g.get_actions s).foldl (fun tt a => (tt.add_child h a).1) t) h).children := by
  obtain ⟨spec1, spec2, spec3, spec4, spec5, spec6⟩ :=
    addChildren_spec (g.get_actions s) t h hp hnodup (by rw [hempty]; simp)
  set t' := (g.get_actions s).foldl (fun tt a => (tt.add_child h a).1) t with ht'
  have hkeys : (nd t' h).children.map Prod.fst = g.get_actions s := by
    rw [spec4, hempty]
    simp only [List.nil_append]
    rw [List.map_map]
    exact List.enumFrom_map_snd _ _
  obtain ⟨a, rng', hch, hamem⟩ := choose_mem (g.get_actions s) rng hne
  have hamem' : a ∈ (nd t' h).children.map Prod.fst := by rw [hkeys]; exact hamem
  obtain ⟨pair, hpairmem, hpairfst⟩ := List.mem_map.mp hamem'
  have hpair : (a, pair.2) ∈ (nd t' h).children := by
    rw [← hpairfst]
    simpa using hpairmem
  have hlook : lookupChild (nd t' h).children a = some pair.2 :=
    lookupChild_of_mem (by rw [hkeys]; exact hnodup) hpair
  obtain ⟨s', hs'⟩ := hnext a hamem
  refine ⟨a, pair.2, s', rng', ?_, hamem, hs', hpair⟩
  show (if g.is_terminal s then some (h, s, t, rng)
    else
      match choose (g.get_actions s) rng with
      | (none, _) => none
      | (some a, rng') =>
        match lookupChild (nd t' h).children a with
        | none => none
        | some child =>
          match g.get_next_state s a with
          | none => none
          | some state' => some (child, state', t', rng')) = _
  rw [if_neg (by rw [hterm]; exact Bool.false_ne_true), hch]
  dsimp only
  rw [hlook]
  dsimp only
  rw [hs']

end Mcts

namespace Mcts

theorem insertChild_mem {A : Type} [DecidableEq A] {l : List (A × Nat)} {a : A}
    {c : Nat} {pair : A × Nat} (h : pair ∈ insertChild l a c) :
    pair ∈ l ∨ pair = (a, c) := by
  unfold insertChild at h
  split_ifs at h with hany
  · obtain ⟨q, hq, hqe⟩ := List.mem_map.mp h
    split_ifs at hqe with hqa
    · exact Or.inr hqe.symm
    · exact Or.inl (hqe ▸ hq)
  · rcases List.mem_append.mp h with h' | h'
    · exact Or.inl h'
    · exact Or.inr (List.mem_singleton.mp h')

theorem insertChild_keys {A : Type} [DecidableEq A] (l : List (A × Nat)) (a : A)
    (c : Nat) :
    (insertChild l a c).map Prod.fst = l.map Prod.fst ∨
      (insertChild l a c).map Prod.fst = l.map Prod.fst ++ [a] ∧ a ∉ l.map Prod.fst := by
  unfold insertChild
  split_ifs with hany
  · left
    rw [List.map_map]
    apply List.map_congr_left
    intro x hx
    by_cases hxa : x.1 = a
    · simp [hxa]
    · simp [hxa]
  · right
    constructor
    · simp
    · intro hmem
      obtain ⟨x, hx, hxa⟩ := List.mem_map.mp hmem
      apply absurd hany
      simp only [not_not, List.any_eq_true]
      exact ⟨x, hx, by simpa using hxa⟩

theorem add_child_parent_eq {S A : Type} [DecidableEq A] (t : MctsTree S A)
    {p : Nat} (a : A) (hp : p < t.nodes.length) (j : Nat) (hj : j < t.nodes.length) :
    (nd (t.add_child p a).1 j).parent = (nd t j).parent := by
  by_cases hjp : j = p
  · subst hjp
    rw [add_child_nd_parent t a hp]
  · rw [add_child_nd_other t a hjp, if_neg (by omega)]

theorem add_child_counters_eq {S A : Type} [DecidableEq A] (t : MctsTree S A)
    {p : Nat} (a : A) (hp : p < t.nodes.length) (j : Nat) (hj : j < t.nodes.length) :
    (nd (t.add_child p a).1 j).visits = (nd t j).visits ∧
      (nd (t.add_child p a).1 j).wins = (nd t j).wins := by
  by_cases hjp : j = p
  · subst hjp
    rw [add_child_nd_parent t a hp]
    exact ⟨rfl, rfl⟩
  · rw [add_child_nd_other t a hjp, if_neg (by omega)]
    exact ⟨rfl, rfl⟩

theorem add_child_children_eq {S A : Type} [DecidableEq A] (t : MctsTree S A)
    {p : Nat} (a : A) (j : Nat) (hj : j < t.nodes.length) (hjp : j ≠ p) :
    (nd (t.add_child p a).1 j).children = (nd t j).children := by
  rw [add_child_nd_other t a hjp, if_neg (by omega)]

theorem add_child_TreeWF {S A : Type} [DecidableEq A] {t : MctsTree S A}
    {p : Nat} (a : A) (hwf : TreeWF t) (hp : p < t.nodes.length) :
    TreeWF (t.add_child p a).1 := by
  set t' := (t.add_child p a).1 with ht'
  have hlen : t'.nodes.length = t.nodes.length + 1 := add_child_length t p a
  have hroot : t'.root = t.root := add_child_root t p a
  have hchild_of : ∀ j x c, j < t'.nodes.length → (x, c) ∈ (nd t' j).children →
      (j < t.nodes.length ∧ (x, c) ∈ (nd t j).children) ∨
        (j = p ∧ (x, c) = (a, t.nodes.length)) := by
    intro j x c hj hmem
    by_cases hjp : j = p
    · subst hjp
      rw [ht', add_child_nd_parent t a hp] at hmem
      rcases insertChild_mem hmem with h | h
      · exact Or.inl ⟨hp, h⟩
      · exact Or.inr ⟨rfl, h⟩
    · rw [ht', add_child_nd_other t a hjp] at hmem
      by_cases hjl : j = t.nodes.length
      · rw [if_pos hjl] at hmem
        exact absurd hmem (by simp [MctsNode.new])
      · rw [if_neg hjl] at hmem
        exact Or.inl ⟨by omega, hmem⟩
  constructor
  · rw [hroot, hwf.root_zero]
  · omega
  · rw [hroot]
    by_cases hrp : t.root = p
    · rw [hrp, ht', add_child_nd_parent t a hp]
      rw [← hrp]
      exact hwf.root_parent
    · rw [ht', add_child_nd_other t a hrp,
        if_neg (by have := hwf.nonempty; rw [hwf.root_zero]; omega)]
      exact hwf.root_parent
  · intro i hi q hq
    by_cases hip : i = p
    · subst hip
      rw [ht', add_child_nd_parent t a hp] at hq
      exact hwf.parent_lt i hp q hq
    · rw [ht', add_child_nd_other t a hip] at hq
      by_cases hil : i = t.nodes.length
      · rw [if_pos hil] at hq
        injection hq with hq
        omega
      · rw [if_neg hil] at hq
        exact hwf.parent_lt i (by omega) q hq
  · intro i hi hir
    by_cases hip : i = p
    · subst hip
      rw [ht', add_child_nd_parent t a hp]
      exact hwf.parent_of_nonroot i hp (by rw [hroot] at hir; exact hir)
    · rw [ht', add_child_nd_other t a hip]
      by_cases hil : i = t.nodes.length
      · rw [if_pos hil]
        simp [MctsNode.new]
      · rw [if_neg hil]
        exact hwf.parent_of_nonroot i (by omega) (by rw [hroot] at hir; exact hir)
  · intro i hi x c hmem
    rcases hchild_of i x c hi hmem with ⟨hil, hold⟩ | ⟨rfl, hnew⟩
    · obtain ⟨h1, h2, h3⟩ := hwf.child_bounds i hil x c hold
      refine ⟨h1, by omega, ?_⟩
      rw [ht', add_child_parent_eq t a hp c h2]
      exact h3
    · injection hnew with hx hc
      subst hc
      refine ⟨hp, by omega, ?_⟩
      rw [ht', add_child_nd_other t a (by omega), if_pos rfl]
      rfl
  · intro i j x x' c hi hj hmi hmj
    rcases hchild_of i x c hi hmi with ⟨hil, holdi⟩ | ⟨rfl, hnewi⟩ <;>
      rcases hchild_of j x' c hj hmj with ⟨hjl, holdj⟩ | ⟨rfl, hnewj⟩
    · exact hwf.edge_unique i j x x' c hil hjl holdi holdj
    · injection hnewj with hx hc
      obtain ⟨-, hcb, -⟩ := hwf.child_bounds i hil x c holdi
      omega
    · injection hnewi with hx hc
      obtain ⟨-, hcb, -⟩ := hwf.child_bounds j hjl x' c holdj
      omega
    · injection hnewi with hxi hci
      injection hnewj with hxj hcj
      exact ⟨rfl, hxi.trans hxj.symm⟩
  · intro i hi
    by_cases hip : i = p
    · rw [ht', hip, add_child_nd_parent t a hp]
      dsimp only
      rcases insertChild_keys (nd t p).children a t.nodes.length with h | ⟨h, hfree⟩
      · rw [h]
        exact hwf.keys_nodup p hp
      · rw [h]
        refine List.Nodup.append (hwf.keys_nodup p hp) (List.nodup_singleton a) ?_
        intro x hx hx'
        rw [List.mem_singleton] at hx'
        subst hx'
        exact hfree hx
    · rw [ht', add_child_nd_other t a hip]
      by_cases hil : i = t.nodes.length
      · rw [if_pos hil]
        simp [MctsNode.new]
      · rw [if_neg hil]
        exact hwf.keys_nodup i (by omega)

theorem add_child_CountersInv {S A : Type} [DecidableEq A] {t : MctsTree S A}
    {p : Nat} (a : A) (hci : CountersInv t) (hwf : TreeWF t)
    (hp : p < t.nodes.length) : CountersInv (t.add_child p a).1 := by
  set t' := (t.add_child p a).1 with ht'
  have hlen : t'.nodes.length = t.nodes.length + 1 := add_child_length t p a
  intro i hi
  by_cases hil : i = t.nodes.length
  · subst hil
    rw [ht', add_child_nd_other t a (by omega), if_pos rfl]
    refine ⟨le_refl 0, le_refl 0, ?_⟩
    intro q hq
    have hqp : q = p := by
      have h' : (some p : Option Nat) = some q := hq
      injection h' with h'
      exact h'.symm
    rw [hqp]
    obtain ⟨hw0, hwv, -⟩ := hci p hp
    have hvq : (nd t' p).visits = (nd t p).visits := (add_child_counters_eq t a hp p hp).1
    show (MctsNode.new (A := A) (some p)).visits ≤ (nd t' p).visits
    rw [hvq]
    show (0 : Int) ≤ (nd t p).visits
    omega
  · have hilt : i < t.nodes.length := by omega
    obtain ⟨hv, hw⟩ := add_child_counters_eq t a hp i hilt
    obtain ⟨h1, h2, h3⟩ := hci i hilt
    refine ⟨by rw [hw]; exact h1, by rw [hw, hv]; exact h2, ?_⟩
    intro q hq
    rw [ht', add_child_parent_eq t a hp i hilt] at hq
    have hqlt : q < t.nodes.length := by
      have := hwf.parent_lt i hilt q hq
      omega
    obtain ⟨hvq, -⟩ := add_child_counters_eq t a hp q hqlt
    rw [hv, hvq]
    exact h3 q hq

end Mcts

namespace Mcts

theorem addMany_length {S A : Type} [DecidableEq A] (as : List A)
    (t : MctsTree S A) (p : Nat) :
    (as.foldl (fun tt a => (tt.add_child p a).1) t).nodes.length =
      t.nodes.length + as.length := by
  induction as generalizing t with
  | nil => simp
  | cons a as ih =>
    simp only [List.foldl_cons]
    rw [ih, add_child_length, List.length_cons]
    omega

theorem addMany_root {S A : Type} [DecidableEq A] (as : List A)
    (t : MctsTree S A) (p : Nat) :
    (as.foldl (fun tt a => (tt.add_child p a).1) t).root = t.root ∧
      (as.foldl (fun tt a => (tt.add_child p a).1) t).root_state = t.root_state := by
  induction as generalizing t with
  | nil => exact ⟨rfl, rfl⟩
  | cons a as ih =>
    simp only [List.foldl_cons]
    obtain ⟨h1, h2⟩ := ih (t.add_child p a).1
    exact ⟨h1.trans (add_child_root t p a), h2.trans (add_child_root_state t p a)⟩

theorem addMany_TreeWF {S A : Type} [DecidableEq A] (as : List A)
    {t : MctsTree S A} {p : Nat} (hwf : TreeWF t) (hp : p < t.nodes.length) :
    TreeWF (as.foldl (fun tt a => (tt.add_child p a).1) t) := by
  induction as generalizing t with
  | nil => exact hwf
  | cons a as ih =>
    simp only [List.foldl_cons]
    exact ih (add_child_TreeWF a hwf hp) (by rw [add_child_length]; omega)

theorem addMany_CountersInv {S A : Type} [DecidableEq A] (as : List A)
    {t : MctsTree S A} {p : Nat} (hci : CountersInv t) (hwf : TreeWF t)
    (hp : p < t.nodes.length) :
    CountersInv (as.foldl (fun tt a => (tt.add_child p a).1) t) := by
  induction as generalizing t with
  | nil => exact hci
  | cons a as ih =>
    simp only [List.foldl_cons]
    exact ih (add_child_CountersInv a hci hwf hp) (add_child_TreeWF a hwf hp)
      (by rw [add_child_length]; omega)

theorem addMany_counters_eq {S A : Type} [DecidableEq A] (as : List A)
    {t : MctsTree S A} {p : Nat} (hp : p < t.nodes.length) :
    ∀ j, j < t.nodes.length →
      (nd (as.foldl (fun tt a => (tt.add_child p a).1) t) j).visits = (nd t j).visits ∧
      (nd (as.foldl (fun tt a => (tt.add_child p a).1) t) j).wins = (nd t j).wins := by
  induction as generalizing t with
  | nil => exact fun j _ => ⟨rfl, rfl⟩
  | cons a as ih =>
    intro j hj
    simp only [List.foldl_cons]
    obtain ⟨h1, h2⟩ := ih (t := (t.add_child p a).1)
      (by rw [add_child_length]; omega) j (by rw [add_child_length]; omega)
    obtain ⟨h3, h4⟩ := add_child_counters_eq t a hp j hj
    exact ⟨h1.trans h3, h2.trans h4⟩

/-- A tree with the same length, root and pointer structure as a well-formed
tree is well-formed (counters are irrelevant to `TreeWF`). -/
theorem TreeWF_congr {S A : Type} {t t' : MctsTree S A} (hwf : TreeWF t)
    (hlen : t'.nodes.length = t.nodes.length) (hroot : t'.root = t.root)
    (hsame : ∀ i, (nd t' i).parent = (nd t i).parent ∧
      (nd t' i).children = (nd t i).children) : TreeWF t' := by
  constructor
  · rw [hroot, hwf.root_zero]
  · rw [hlen]; exact hwf.nonempty
  · rw [hroot, (hsame t.root).1]; exact hwf.root_parent
  · intro i hi q hq
    rw [(hsame i).1] at hq
    exact hwf.parent_lt i (by omega) q hq
  · intro i hi hir
    rw [(hsame i).1]
    exact hwf.parent_of_nonroot i (by omega) (by rw [hroot] at hir; exact hir)
  · intro i hi x c hmem
    rw [(hsame i).2] at hmem
    obtain ⟨h1, h2, h3⟩ := hwf.child_bounds i (by omega) x c hmem
    exact ⟨h1, by omega, by rw [(hsame c).1]; exact h3⟩
  · intro i j x x' c hi hj hmi hmj
    rw [(hsame i).2] at hmi
    rw [(hsame j).2] at hmj
    exact hwf.edge_unique i j x x' c (by omega) (by omega) hmi hmj
  · intro i hi
    rw [(hsame i).2]
    exact hwf.keys_nodup i (by omega)

theorem TreeWF_new {S A : Type} (root_state : S) :
    TreeWF (MctsTree.new (S := S) (A := A) root_state) := by
  constructor
  · rfl
  · simp [MctsTree.new]
  · rfl
  · intro i hi q hq
    simp only [MctsTree.new, List.length_singleton] at hi
    interval_cases i
    exact Option.noConfusion hq
  · intro i hi hir
    simp only [MctsTree.new, List.length_singleton] at hi
    interval_cases i
    exact absurd rfl hir
  · intro i hi x c hmem
    simp only [MctsTree.new, List.length_singleton] at hi
    interval_cases i
    exact absurd hmem (by simp [nd, MctsTree.new, MctsNode.new])
  · intro i j x x' c hi hj hmi hmj
    simp only [MctsTree.new, List.length_singleton] at hi
    interval_cases i
    exact absurd hmi (by simp [nd, MctsTree.new, MctsNode.new])
  · intro i hi
    simp only [MctsTree.new, List.length_singleton] at hi
    interval_cases i
    simp [nd, MctsTree.new, MctsNode.new]

theorem CountersInv_new {S A : Type} (root_state : S) :
    CountersInv (MctsTree.new (S := S) (A := A) root_state) := by
  intro i hi
  simp only [MctsTree.new, List.length_singleton] at hi
  interval_cases i
  refine ⟨le_refl 0, le_refl 0, ?_⟩
  intro q hq
  exact Option.noConfusion hq

end Mcts

namespace Mcts

theorem bp_CountersInv {S A : Type} {t t' : MctsTree S A} {start : Nat}
    {results : List SimulationResult} (hci : CountersInv t)
    (hlen : t'.nodes.length = t.nodes.length)
    (hpar : ∀ i, (nd t' i).parent = (nd t i).parent)
    (hon : ∀ i, OnPath t start i → nd t' i = bpNode results (nd t i))
    (hoff : ∀ i, ¬ OnPath t start i → nd t' i = nd t i) : CountersInv t' := by
  intro i hi
  rw [hlen] at hi
  obtain ⟨h0, h1, h2⟩ := hci i hi
  obtain ⟨hW0, hWL⟩ := winCount_bounds results
  refine ⟨?_, ?_, ?_⟩
  · by_cases hpath : OnPath t start i
    · rw [hon i hpath, bpNode_eq]
      dsimp only
      omega
    · rw [hoff i hpath]
      exact h0
  · by_cases hpath : OnPath t start i
    · rw [hon i hpath, bpNode_eq]
      dsimp only
      omega
    · rw [hoff i hpath]
      exact h1
  · intro q hq
    rw [hpar i] at hq
    by_cases hpath : OnPath t start i
    · have hqpath : OnPath t start q := OnPath.step hpath hq
      rw [hon i hpath, hon q hqpath, bpNode_eq, bpNode_eq]
      dsimp only
      have := h2 q hq
      omega
    · rw [hoff i hpath]
      by_cases hqpath : OnPath t start q
      · rw [hon q hqpath, bpNode_eq]
        dsimp only
        have := h2 q hq
        omega
      · rw [hoff q hqpath]
        exact h2 q hq

theorem lookupChild_some_mem {A : Type} [DecidableEq A] {l : List (A × Nat)}
    {a : A} {c : Nat} (h : lookupChild l a = some c) : (a, c) ∈ l := by
  unfold lookupChild at h
  rcases hf : l.find? (fun p => p.1 = a) with _ | pair
  · rw [hf] at h
    exact Option.noConfusion h
  · rw [hf] at h
    have hmem := List.mem_of_find?_eq_some hf
    have hpred : pair.1 = a := by simpa using List.find?_some hf
    have h2 : pair.2 = c := by simpa using h
    have : pair = (a, c) := by
      rcases pair with ⟨x, y⟩
      simp only at hpred h2
      rw [hpred, h2]
    exact this ▸ hmem

theorem expand_some_inv {S A : Type} [DecidableEq A] (g : Game S A)
    {t : MctsTree S A} {rng : Rng} {nk : Nat} {s : S} {nk₂ : Nat} {s₂ : S}
    {t₂ : MctsTree S A} {rng₂ : Rng} (hwf : TreeWF t) (hci : CountersInv t)
    (hnk : nk < t.nodes.length)
    (hx : Mcts.expand g t rng nk s = some (nk₂, s₂, t₂, rng₂)) :
    TreeWF t₂ ∧ CountersInv t₂ ∧ nk₂ < t₂.nodes.length ∧ t₂.root = t.root ∧
      t₂.root_state = t.root_state ∧ t.nodes.length ≤ t₂.nodes.length ∧
      ∀ j, j < t.nodes.length →
        (nd t₂ j).visits = (nd t j).visits ∧ (nd t₂ j).wins = (nd t j).wins := by
  unfold Mcts.expand at hx
  split_ifs at hx with hterm
  · simp only [Option.some.injEq, Prod.mk.injEq] at hx
    obtain ⟨rfl, rfl, rfl, rfl⟩ := hx
    exact ⟨hwf, hci, hnk, rfl, rfl, le_refl _, fun j _ => ⟨rfl, rfl⟩⟩
  · dsimp only at hx
    rcases hch : choose (g.get_actions s) rng with ⟨copt, rng'⟩
    rw [hch] at hx
    rcases copt with _ | a
    · exact Option.noConfusion hx
    · dsimp only at hx
      rcases hlk : lookupChild
          (nd ((g.get_actions s).foldl (fun tt a => (tt.add_child nk a).1) t) nk).children a
        with _ | c
      · rw [show (((g.get_actions s).foldl (fun tt a => (tt.add_child nk a).1)
            t).nodes.getD nk default).children =
            (nd ((g.get_actions s).foldl (fun tt a => (tt.add_child nk a).1) t) nk).children
          from rfl, hlk] at hx
        exact Option.noConfusion hx
      · rw [show (((g.get_actions s).foldl (fun tt a => (tt.add_child nk a).1)
            t).nodes.getD nk default).children =
            (nd ((g.get_actions s).foldl (fun tt a => (tt.add_child nk a).1) t) nk).children
          from rfl, hlk] at hx
        dsimp only at hx
        rcases hnx : g.get_next_state s a with _ | s'
        · rw [hnx] at hx
          exact Option.noConfusion hx
        · rw [hnx] at hx
          simp only [Option.some.injEq, Prod.mk.injEq] at hx
          obtain ⟨rfl, rfl, rfl, rfl⟩ := hx
          have hwf₂ := addMany_TreeWF (g.get_actions s) hwf hnk
          have hlen₂ := addMany_length (g.get_actions s) t nk
          have hroots := addMany_root (g.get_actions s) t nk
          have hmem := lookupChild_some_mem hlk
          obtain ⟨-, hc2, -⟩ := hwf₂.child_bounds nk (by omega) a c hmem
          exact ⟨hwf₂, addMany_CountersInv (g.get_actions s) hci hwf hnk, hc2,
            hroots.1, hroots.2, by omega,
            addMany_counters_eq (g.get_actions s) hnk⟩

end Mcts

namespace Mcts

/-- Everything one panic-free iteration guarantees about the tree, with no
assumption on the game: the structural and counter invariants are preserved,
the configuration is unchanged, and the root gains exactly one batch of
simulation results' worth of visits. -/
theorem iteration_some_inv {S A β : Type} [DecidableEq A] [LinearOrder β]
    (g : Game S A) (score : Int → Int → Int → β) {m m' : Mcts S A}
    (hwf : TreeWF m.tree) (hci : CountersInv m.tree)
    (hit : m.iteration g score = some m') :
    TreeWF m'.tree ∧ CountersInv m'.tree ∧ m'.tree.root = m.tree.root ∧
      m'.tree.root_state = m.tree.root_state ∧
      m'.playouts_per_simulation = m.playouts_per_simulation ∧
      m'.max_depth_per_playout = m.max_depth_per_playout ∧
      m'.iteration_limit = m.iteration_limit ∧
      ∃ s₂ rng₂ results rng₃,
        g.simulate s₂ m.playouts_per_simulation m.max_depth_per_playout rng₂ =
          some (results, rng₃) ∧
        (nd m'.tree m'.tree.root).visits =
          (nd m.tree m.tree.root).visits + results.length := by
  unfold Mcts.iteration at hit
  rcases hsel : m.select g score with _ | ⟨nk, s⟩
  · rw [hsel] at hit
    exact Option.noConfusion hit
  · rw [hsel] at hit
    dsimp only at hit
    have hroot_lt : m.tree.root < m.tree.nodes.length := by
      rw [hwf.root_zero]
      exact hwf.nonempty
    have hnk := selectLoop_some_inv g score m.tree
      (fun i hi a c hmem => (hwf.child_bounds i hi a c hmem).2.1)
      (m.tree.nodes.length + 1) m.tree.root m.tree.root_state nk s hroot_lt hsel
    rcases hexp : Mcts.expand g m.tree m.rng nk s with _ | ⟨nk₂, s₂, t₂, rng₂⟩
    · rw [hexp] at hit
      exact Option.noConfusion hit
    · rw [hexp] at hit
      dsimp only at hit
      obtain ⟨hwf₂, hci₂, hnk₂, hroot₂, hrs₂, hle₂, hcnt₂⟩ :=
        expand_some_inv g hwf hci hnk.1 hexp
      rcases hsim : g.simulate s₂ m.playouts_per_simulation m.max_depth_per_playout rng₂
        with _ | ⟨results, rng₃⟩
      · rw [hsim] at hit
        exact Option.noConfusion hit
      · rw [hsim] at hit
        dsimp only at hit
        obtain ⟨t₃, hbp, hlen₃, hroot₃, hrs₃, hon, hoff⟩ :=
          bpLoop_spec results t₂.nodes.length t₂ nk₂ hwf₂.parent_lt hnk₂ (by omega)
        rw [show Mcts.back_propagate t₂ nk₂ results =
            bpLoop results t₂ t₂.nodes.length nk₂ from rfl, hbp] at hit
        simp only [Option.some.injEq] at hit
        subst hit
        have hsame : ∀ i, (nd t₃ i).parent = (nd t₂ i).parent ∧
            (nd t₃ i).children = (nd t₂ i).children := by
          intro i
          by_cases hpath : OnPath t₂ nk₂ i
          · rw [hon i hpath, bpNode_parent, bpNode_children]
            exact ⟨rfl, rfl⟩
          · rw [hoff i hpath]
            exact ⟨rfl, rfl⟩
        have hwf₃ : TreeWF t₃ := TreeWF_congr hwf₂ hlen₃ hroot₃ hsame
        have hci₃ : CountersInv t₃ :=
          bp_CountersInv hci₂ hlen₃ (fun i => (hsame i).1) hon hoff
        have hrootpath : OnPath t₂ nk₂ t₂.root :=
          root_onPath hwf₂.parent_lt hwf₂.parent_of_nonroot nk₂ hnk₂
        have hrootvisits : (nd t₃ t₂.root).visits =
            (nd t₂ t₂.root).visits + results.length := by
          rw [hon t₂.root hrootpath, bpNode_eq]
        refine ⟨hwf₃, hci₃, hroot₃.trans hroot₂, hrs₃.trans hrs₂, rfl, rfl, rfl,
          s₂, rng₂, results, rng₃, hsim, ?_⟩
        show (nd t₃ t₃.root).visits = (nd m.tree m.tree.root).visits + results.length
        rw [hroot₃, hrootvisits, hroot₂,
          (hcnt₂ m.tree.root hroot_lt).1]

end Mcts

namespace Mcts

theorem mem_enum_swap {A : Type} :
    ∀ (as : List A) (L : Nat) {pair : A × Nat},
      pair ∈ (as.enumFrom L).map (fun ia => (ia.2, ia.1)) →
      ∃ i, i < as.length ∧ pair.2 = L + i := by
  intro as
  induction as with
  | nil => intro L pair h; exact absurd h (by simp)
  | cons a as ih =>
    intro L pair h
    rw [List.enumFrom_cons, List.map_cons] at h
    rcases List.mem_cons.mp h with rfl | h'
    · exact ⟨0, by simp, rfl⟩
    · obtain ⟨i, hi, hpi⟩ := ih (L + 1) h'
      exact ⟨i + 1, by simpa using hi, by omega⟩

theorem Reach_TreeWF_CountersInv {S A β : Type} [DecidableEq A] [LinearOrder β]
    {g : Game S A} {score : Int → Int → Int → β} {m : Mcts S A}
    (h : Reach g score m) : TreeWF m.tree ∧ CountersInv m.tree := by
  induction h with
  | base root_state il p d r => exact ⟨TreeWF_new root_state, CountersInv_new root_state⟩
  | step hreach hit ih =>
    obtain ⟨hwf, hci, -⟩ := iteration_some_inv _ _ ih.1 ih.2 hit
    exact ⟨hwf, hci⟩

/-- The induction behind claim C1: every panic-free run of `n` iterations
adds `n · k` visits to the root, where `k` is the batch size guaranteed by
the game's `simulate`. -/
theorem runIter_root_visits {S A β : Type} [DecidableEq A] [LinearOrder β]
    (g : Game S A) (score : Int → Int → Int → β) (k : Int)
    (hsim : ∀ s d rng l rng', g.simulate s k d rng = some (l, rng') →
      (l.length : Int) = k) :
    ∀ (n : Nat) (m : Mcts S A), TreeWF m.tree → CountersInv m.tree →
      m.playouts_per_simulation = k →
      ∀ m', m.runIter g score n = some m' →
      (nd m'.tree m'.tree.root).visits = (nd m.tree m.tree.root).visits + n * k := by
  intro n
  induction n with
  | zero =>
    intro m _ _ _ m' hrun
    simp only [Mcts.runIter, Option.some.injEq] at hrun
    subst hrun
    simp
  | succ n ih =>
    intro m hwf hci hk m' hrun
    rw [show m.runIter g score (n + 1) =
        (match m.iteration g score with
          | none => none
          | some m₁ => m₁.runIter g score n) from rfl] at hrun
    rcases hit : m.iteration g score with _ | m₁
    · rw [hit] at hrun
      exact Option.noConfusion hrun
    · rw [hit] at hrun
      obtain ⟨hwf₁, hci₁, -, -, hp₁, -, -, s₂, rng₂, results, rng₃, hsimres, hvis⟩ :=
        iteration_some_inv g score hwf hci hit
      have hlen : (results.length : Int) = k := by
        apply hsim s₂ m.max_depth_per_playout rng₂ results rng₃
        rw [← hk]
        exact hsimres
      have := ih m₁ hwf₁ hci₁ (hp₁.trans hk) m' hrun
      rw [this, hvis, hlen]
      push_cast
      ring

end Mcts

namespace MctsE2E

open ConnectFourLogic
open Mcts (SimulationResult Rng nd)

theorem simulateLoop_length :
    ∀ (n : Nat) (s : State) (d : Int) (rng : Rng) (l : List SimulationResult)
      (rng' : Rng), simulateLoop s d rng n = some (l, rng') → l.length = n := by
  intro n
  induction n with
  | zero =>
    intro s d rng l rng' h
    simp only [simulateLoop, Option.some.injEq, Prod.mk.injEq] at h
    rw [← h.1]
    rfl
  | succ n ih =>
    intro s d rng l rng' h
    rw [show simulateLoop s d rng (n + 1) =
        (match playout s d rng with
          | none => none
          | some (res, rng₁) =>
            match simulateLoop s d rng₁ n with
            | none => none
            | some (rest, rng₂) => some (res :: rest, rng₂)) from rfl] at h
    rcases hp : playout s d rng with _ | ⟨res, rng₁⟩
    · rw [hp] at h
      exact Option.noConfusion h
    · rw [hp] at h
      dsimp only at h
      rcases hl : simulateLoop s d rng₁ n with _ | ⟨rest, rng₂⟩
      · rw [hl] at h
        exact Option.noConfusion h
      · rw [hl] at h
        simp only [Option.some.injEq, Prod.mk.injEq] at h
        rw [← h.1, List.length_cons, ih s d rng₁ rest rng₂ hl]

theorem c4_simulate_length (k : Int) (hk : 0 ≤ k) :
    ∀ (s : State) (d : Int) (rng : Rng) (l : List SimulationResult) (rng' : Rng),
      c4Game.simulate s k d rng = some (l, rng') → (l.length : Int) = k := by
  intro s d rng l rng' h
  have := simulateLoop_length k.toNat s d rng l rng' h
  rw [this]
  omega

end MctsE2E

namespace Mcts

open MctsE2E (State Action c4Game)

/-- claim C1 — running the engine with `Iterations(N)` (`N ≥ 0`) on a game
whose `simulate` always returns exactly `k ≥ 1` results leaves the root with
exactly `N · k` visits (conditional on the run finishing, i.e. not
panicking). -/
theorem claim_run_root_visits {S A β : Type} [DecidableEq A] [LinearOrder β]
    (g : Game S A) (score : Int → Int → Int → β) (root_state : S)
    (k d : Int) (r : Rng) (N : Int) (m' : Mcts S A)
    (hk : 1 ≤ k) (hN : 0 ≤ N)
    (hsim : ∀ s d' rng l rng', g.simulate s k d' rng = some (l, rng') →
      (l.length : Int) = k)
    (hrun : (Mcts.new root_state (.iterations N) k d r).run g score = some m') :
    (nd m'.tree m'.tree.root).visits = N * k := by
  unfold Mcts.run at hrun
  have := runIter_root_visits g score k hsim N.toNat
    (Mcts.new root_state (.iterations N) k d r)
    (TreeWF_new root_state) (CountersInv_new root_state) rfl m' hrun
  rw [this]
  have hroot0 : (nd (Mcts.new (S := S) (A := A) root_state
      (.iterations N) k d r).tree 0).visits = 0 := rfl
  rw [show (Mcts.new (S := S) (A := A) root_state
      (.iterations N) k d r).tree.root = 0 from rfl, hroot0]
  rw [Int.toNat_of_nonneg hN]
  ring

/-- Witness for claim C1: two iterations with three playouts each on the 4×1
Connect Four game leave the root with 6 visits. -/
theorem claim_run_root_visits_witness :
    ∃ m', (Mcts.new (S := State) (A := Action)
        ⟨⟨[ConnectFourLogic.Cell.empty, ConnectFourLogic.Cell.empty, ConnectFourLogic.Cell.empty, ConnectFourLogic.Cell.empty], 4, 1⟩, .player1, .player1⟩
        (.iterations 2) 3 1 ⟨fun _ => 0, 0⟩).run c4Game (fun _ _ _ => (0 : Int)) =
        some m' ∧
      (nd m'.tree m'.tree.root).visits = 2 * 3 := by
  rcases hEq : (Mcts.new (S := State) (A := Action)
      ⟨⟨[ConnectFourLogic.Cell.empty, ConnectFourLogic.Cell.empty, ConnectFourLogic.Cell.empty, ConnectFourLogic.Cell.empty], 4, 1⟩, .player1, .player1⟩
      (.iterations 2) 3 1 ⟨fun _ => 0, 0⟩).run c4Game (fun _ _ _ => (0 : Int))
    with _ | m'
  · have hsome : ((Mcts.new (S := State) (A := Action)
        ⟨⟨[ConnectFourLogic.Cell.empty, ConnectFourLogic.Cell.empty, ConnectFourLogic.Cell.empty, ConnectFourLogic.Cell.empty], 4, 1⟩, .player1, .player1⟩
        (.iterations 2) 3 1 ⟨fun _ => 0, 0⟩).run c4Game
          (fun _ _ _ => (0 : Int))).isSome = true := rfl
    rw [hEq] at hsome
    exact Bool.noConfusion hsome
  · refine ⟨m', rfl, ?_⟩
    exact claim_run_root_visits c4Game (fun _ _ _ => (0 : Int)) _ 3 1 _ 2 m'
      (by omega) (by omega) (MctsE2E.c4_simulate_length 3 (by omega)) hEq

end Mcts

namespace Mcts

open MctsE2E (State Action c4Game)

/-- claim C3 — in every engine state reachable from a freshly constructed
tree by whole iterations, every node has `visits ≥ 0` and `0 ≤ wins ≤ visits`,
and every non-root node has at most its parent's visits. -/
theorem claim_counters_invariant {S A β : Type} [DecidableEq A] [LinearOrder β]
    (g : Game S A) (score : Int → Int → Int → β) (m : Mcts S A)
    (h : Reach g score m) :
    ∀ i, i < m.tree.nodes.length →
      0 ≤ (nd m.tree i).visits ∧
      0 ≤ (nd m.tree i).wins ∧ (nd m.tree i).wins ≤ (nd m.tree i).visits ∧
      ∀ p, (nd m.tree i).parent = some p →
        (nd m.tree i).visits ≤ (nd m.tree p).visits := by
  intro i hi
  obtain ⟨-, hci⟩ := Reach_TreeWF_CountersInv h
  obtain ⟨h0, h1, h2⟩ := hci i hi
  exact ⟨le_trans h0 h1, h0, h1, h2⟩

/-- Witness for claim C3: the freshly constructed engine on the 4×1 Connect
Four game, at the root node. -/
theorem claim_counters_invariant_witness :
    0 ≤ (nd (Mcts.new (S := State) (A := Action)
        ⟨⟨[ConnectFourLogic.Cell.empty, ConnectFourLogic.Cell.empty,
            ConnectFourLogic.Cell.empty, ConnectFourLogic.Cell.empty], 4, 1⟩,
          .player1, .player1⟩
        (.iterations 1) 1 1 ⟨fun _ => 0, 0⟩).tree 0).visits ∧
      0 ≤ (nd (Mcts.new (S := State) (A := Action)
        ⟨⟨[ConnectFourLogic.Cell.empty, ConnectFourLogic.Cell.empty,
            ConnectFourLogic.Cell.empty, ConnectFourLogic.Cell.empty], 4, 1⟩,
          .player1, .player1⟩
        (.iterations 1) 1 1 ⟨fun _ => 0, 0⟩).tree 0).wins := by
  obtain ⟨h0, h1, -, -⟩ := claim_counters_invariant c4Game (fun _ _ _ => (0 : Int)) _
    (Reach.base ⟨⟨[ConnectFourLogic.Cell.empty, ConnectFourLogic.Cell.empty,
        ConnectFourLogic.Cell.empty, ConnectFourLogic.Cell.empty], 4, 1⟩,
      .player1, .player1⟩ (.iterations 1) 1 1 ⟨fun _ => 0, 0⟩) 0
    (by simp [Mcts.new, MctsTree.new])
  exact ⟨h0, h1⟩

end Mcts

namespace Mcts

theorem intMin_neg : intMin < 0 := by norm_num [intMin]

theorem bestFold_spec {S A : Type} (t : MctsTree S A) :
    ∀ (l : List (A × Nat)) (acc : Option A × Int),
      ∃ res, l.foldl (fun (best : Option A × Int) ac =>
          if best.2 < (nd t ac.2).visits then (some ac.1, (nd t ac.2).visits)
          else best) acc = res ∧
        acc.2 ≤ res.2 ∧
        ((res = acc ∧ ∀ ac ∈ l, (nd t ac.2).visits ≤ acc.2) ∨
          (∃ a c, res = (some a, (nd t c).visits) ∧ (a, c) ∈ l ∧
            ∀ ac ∈ l, (nd t ac.2).visits ≤ (nd t c).visits)) := by
  intro l
  induction l with
  | nil =>
    intro acc
    exact ⟨acc, rfl, le_refl _, Or.inl ⟨rfl, by simp⟩⟩
  | cons ac l ih =>
    intro acc
    by_cases hc : acc.2 < (nd t ac.2).visits
    · obtain ⟨res, hres, hmono, hcase⟩ := ih (some ac.1, (nd t ac.2).visits)
      refine ⟨res, ?_, ?_, ?_⟩
      · rw [List.foldl_cons, if_pos hc]
        exact hres
      · exact le_trans (le_of_lt hc) hmono
      · rcases hcase with ⟨rfl, hall⟩ | ⟨a, c, hres2, hmem, hall⟩
        · refine Or.inr ⟨ac.1, ac.2, rfl, by simp, ?_⟩
          intro ac' hac'
          rcases List.mem_cons.mp hac' with rfl | h'
          · exact le_refl _
          · exact hall ac' h'
        · refine Or.inr ⟨a, c, hres2, List.mem_cons_of_mem _ hmem, ?_⟩
          intro ac' hac'
          rcases List.mem_cons.mp hac' with rfl | h'
          · have : ((some ac'.1, (nd t ac'.2).visits) : Option A × Int).2 ≤ res.2 :=
              hmono
            rw [hres2] at this
            exact this
          · exact hall ac' h'
    · obtain ⟨res, hres, hmono, hcase⟩ := ih acc
      refine ⟨res, ?_, hmono, ?_⟩
      · rw [List.foldl_cons, if_neg hc]
        exact hres
      · rcases hcase with ⟨rfl, hall⟩ | ⟨a, c, hres2, hmem, hall⟩
        · refine Or.inl ⟨rfl, ?_⟩
          intro ac' hac'
          rcases List.mem_cons.mp hac' with rfl | h'
          · omega
          · exact hall ac' h'
        · refine Or.inr ⟨a, c, hres2, List.mem_cons_of_mem _ hmem, ?_⟩
          intro ac' hac'
          rcases List.mem_cons.mp hac' with rfl | h'
          · have h1 : (nd t ac'.2).visits ≤ acc.2 := by omega
            have h2 : acc.2 ≤ res.2 := hmono
            rw [hres2] at h2
            omega
          · exact hall ac' h'

/-- `best_action` characterised: `none` exactly on a childless root, otherwise
an action of a most-visited root child (given sane visit counters). -/
theorem best_action_spec {S A : Type} (m : Mcts S A)
    (hvis : ∀ ac ∈ (nd m.tree m.tree.root).children, 0 ≤ (nd m.tree ac.2).visits) :
    ((nd m.tree m.tree.root).children = [] → m.best_action = none) ∧
    ((nd m.tree m.tree.root).children ≠ [] →
      ∃ a c, m.best_action = some a ∧ (a, c) ∈ (nd m.tree m.tree.root).children ∧
        ∀ ac ∈ (nd m.tree m.tree.root).children,
          (nd m.tree ac.2).visits ≤ (nd m.tree c).visits) := by
  obtain ⟨res, hres, hmono, hcase⟩ :=
    bestFold_spec m.tree (nd m.tree m.tree.root).children (none, intMin)
  have hba : m.best_action = res.1 := by
    show ((nd m.tree m.tree.root).children.foldl
      (fun (best : Option A × Int) ac =>
        if best.2 < (nd m.tree ac.2).visits then (some ac.1, (nd m.tree ac.2).visits)
        else best) (none, intMin)).1 = res.1
    rw [hres]
  constructor
  · intro hch
    rw [hch] at hres
    simp only [List.foldl_nil] at hres
    rw [hba, ← hres]
  · intro hch
    rcases hcase with ⟨rfl, hall⟩ | ⟨a, c, hres2, hmem, hall⟩
    · rcases hchl : (nd m.tree m.tree.root).children with _ | ⟨ac, rest⟩
      · exact absurd hchl hch
      · have h1 := hvis ac (by rw [hchl]; exact List.mem_cons_self _ _)
        have h2 := hall ac (by rw [hchl]; exact List.mem_cons_self _ _)
        have := intMin_neg
        dsimp only at h2
        omega
    · exact ⟨a, c, by rw [hba, hres2], hmem, hall⟩

open MctsE2E (State Action c4Game)

/-- claim C9 — `best_action` returns `Some` exactly when the root has a
child, and any returned action keys a root child of maximal visit count
(engine trees have non-negative visit counters). -/
theorem claim_best_action {S A : Type} (m : Mcts S A)
    (hvis : ∀ ac ∈ (nd m.tree m.tree.root).children, 0 ≤ (nd m.tree ac.2).visits) :
    (m.best_action.isSome = true ↔ (nd m.tree m.tree.root).children ≠ []) ∧
    (∀ a, m.best_action = some a →
      ∃ c, (a, c) ∈ (nd m.tree m.tree.root).children ∧
        ∀ ac ∈ (nd m.tree m.tree.root).children,
          (nd m.tree ac.2).visits ≤ (nd m.tree c).visits) := by
  obtain ⟨hnone, hsome⟩ := best_action_spec m hvis
  constructor
  · constructor
    · intro hs hch
      rw [hnone hch] at hs
      exact Bool.noConfusion hs
    · intro hch
      obtain ⟨a, c, hba, -, -⟩ := hsome hch
      rw [hba]
      rfl
  · intro a hba
    by_cases hch : (nd m.tree m.tree.root).children = []
    · rw [hnone hch] at hba
      exact Option.noConfusion hba
    · obtain ⟨a', c, hba', hmem, hall⟩ := hsome hch
      rw [hba] at hba'
      injection hba' with hba'
      exact ⟨c, hba' ▸ hmem, hall⟩

/-- Witness for claim C9: a two-node tree whose root has one child. -/
theorem claim_best_action_witness :
    (Mcts.best_action (S := State) (A := Action)
      ⟨⟨[⟨none, [(⟨⟨ConnectFourLogic.MoveType.insert, 0⟩⟩, 1)], 5, 2⟩,
          ⟨some 0, [], 3, 1⟩], 0,
        ⟨⟨[ConnectFourLogic.Cell.empty], 1, 1⟩, .player1, .player1⟩⟩,
        .iterations 0, 1, 1, ⟨fun _ => 0, 0⟩⟩).isSome = true := by
  exact (claim_best_action _ (by decide)).1.mpr (by decide)

end Mcts

namespace ConnectFourLogic

/-- claim C5 — `is_terminal_position` reports a win exactly when four
collinear equal cells exist, and with no four-in-a-row it reports a draw
exactly when Player 1 has no legal moves, otherwise not-terminal. -/
theorem claim_terminal_detection (b : Board) :
    (∀ p, is_terminal_position b = .isTerminalWin p → hasWin b p) ∧
    ((∃ p, hasWin b p) →
      ∃ q, is_terminal_position b = .isTerminalWin q ∧ hasWin b q) ∧
    ((¬ ∃ p, hasWin b p) →
      (is_terminal_position b = .isTerminalDraw ↔
        get_legal_moves b Player.player1 = []) ∧
      (is_terminal_position b = .isNotTerminal ↔
        get_legal_moves b Player.player1 ≠ [])) := by
  refine ⟨fun p h => hasWin_of_terminal_win h, ?_, ?_⟩
  · intro h
    obtain ⟨q, hq⟩ := terminal_win_of_hasWin h
    exact ⟨q, hq, hasWin_of_terminal_win hq⟩
  · intro hno
    have ht := terminal_of_no_win hno
    by_cases hmoves : get_legal_moves b Player.player1 = []
    · rw [ht, if_pos hmoves]
      exact ⟨iff_of_true rfl hmoves,
        iff_of_false (fun h => TerminalPosition.noConfusion h) (fun h => h hmoves)⟩
    · rw [ht, if_neg hmoves]
      exact ⟨iff_of_false (fun h => TerminalPosition.noConfusion h)
        (fun h => hmoves h), iff_of_true rfl hmoves⟩

/-- Witness for claim C5: the 4×1 board `1 1 1 1` is a win for Player 1 and
has a horizontal four-in-a-row. -/
theorem claim_terminal_detection_witness :
    is_terminal_position ⟨[Cell.player .player1, Cell.player .player1,
        Cell.player .player1, Cell.player .player1], 4, 1⟩ =
      TerminalPosition.isTerminalWin .player1 ∧
    hasWin ⟨[Cell.player .player1, Cell.player .player1,
        Cell.player .player1, Cell.player .player1], 4, 1⟩ .player1 :=
  ⟨by decide,
    (claim_terminal_detection ⟨[Cell.player .player1, Cell.player .player1,
        Cell.player .player1, Cell.player .player1], 4, 1⟩).1 .player1 (by decide)⟩

end ConnectFourLogic

namespace CF

open ConnectFourLogic (Cell Player)

/-- claim C4 — the two `pop` implementations diverge on a full column: the
connect-four-logic `Board::pop` empties row 0 as the spec states, while the
connect-four crate's `Board::pop` leaves row 0 untouched, so popping a full
1×2 column of Player 1 pieces returns the board unchanged with row 0 still
occupied. -/
theorem claim_pop_row0_divergence :
    (ConnectFourLogic.Board.pop
        ⟨[Cell.player .player1, Cell.player .player1], 1, 2⟩ 0 .player1 =
      .ok ⟨[Cell.empty, Cell.player .player1], 1, 2⟩) ∧
    (CfBoard.pop ⟨[[Cell.player .player1], [Cell.player .player1]], 1, 2⟩ 0 .player1 =
      .ok ⟨[[Cell.player .player1], [Cell.player .player1]], 1, 2⟩) ∧
    CfBoard.at ⟨[[Cell.player .player1], [Cell.player .player1]], 1, 2⟩ 0 0 =
      Cell.player .player1 := by
  refine ⟨?_, ?_, rfl⟩ <;> rfl

end CF

namespace MctsE2E

open ConnectFourLogic
open Mcts (SimulationResult Rng)

/-- claim C10 — `simulate` is deterministic: two calls on the same state with
equal generator states return the same result sequence and final generator. -/
theorem claim_simulate_deterministic (s : State) (k d : Int) (r₁ r₂ : Rng)
    (h : r₁ = r₂) : s.simulate k d r₁ = s.simulate k d r₂ := by rw [h]

/-- Witness for claim C10: two identically seeded runs on the empty 4×1
game coincide. -/
theorem claim_simulate_deterministic_witness :
    (⟨fun _ => 0, 0⟩ : Rng) = (⟨fun _ => 0, 0⟩ : Rng) ∧
      State.simulate ⟨⟨[Cell.empty, Cell.empty, Cell.empty, Cell.empty], 4, 1⟩,
          .player1, .player1⟩ 2 1 ⟨fun _ => 0, 0⟩ =
        State.simulate ⟨⟨[Cell.empty, Cell.empty, Cell.empty, Cell.empty], 4, 1⟩,
          .player1, .player1⟩ 2 1 ⟨fun _ => 0, 0⟩ :=
  ⟨rfl, claim_simulate_deterministic _ 2 1 _ _ rfl⟩

/-- Legal actions of a Connect Four state always have working successor
states that keep the board dimensions and the perspective player. -/
theorem c4_next_ok {s : State} {a : Action} (ha : a ∈ s.get_actions) :
    ∃ s', s.get_next_state a = some s' ∧ s'.board.width = s.board.width ∧
      s'.board.height = s.board.height ∧
      s'.board.cells.length = s.board.cells.length ∧ s'.who_am_i = s.who_am_i := by
  unfold State.get_actions at ha
  obtain ⟨m, hm, rfl⟩ := List.mem_map.mp ha
  obtain ⟨b', hb', hw, hh, hl⟩ := applyMoveB_of_legal hm
  refine ⟨{ s with board := b', turn := s.turn.other }, ?_, hw, hh, hl, rfl⟩
  unfold State.get_next_state
  rw [hb']

end MctsE2E

namespace Mcts

/-- claim C8 (amended) — `expand` on a childless node: a terminal state is
returned unchanged with no children added; a non-terminal state whose action
list is nonempty, duplicate-free and has a successor per action gets exactly
one zeroed child per action and one of these children is returned with the
successor state of its action.  The original claim, with no side condition on
the action list, is refuted by `claim_expand_contract_counterexample`: on a
non-terminal state with no legal action, `expand` panics at its `unwrap`
instead of returning a child. -/
theorem claim_expand_contract {S A : Type} [DecidableEq A] (g : Game S A)
    (t : MctsTree S A) (rng : Rng) (h : Nat) (s : S)
    (hp : h < t.nodes.length) (hempty : (nd t h).children = [])
    (hnodup : (g.get_actions s).Nodup)
    (hne : g.get_actions s ≠ [])
    (hnext : ∀ a ∈ g.get_actions s, ∃ s', g.get_next_state s a = some s') :
    (g.is_terminal s = true → Mcts.expand g t rng h s = some (h, s, t, rng)) ∧
    (g.is_terminal s = false →
      ∃ a c s' t' rng', Mcts.expand g t rng h s = some (c, s', t', rng') ∧
        a ∈ g.get_actions s ∧
        (nd t' h).children.map Prod.fst = g.get_actions s ∧
        (nd t' h).children.length = (g.get_actions s).length ∧
        (∀ pair ∈ (nd t' h).children,
          (nd t' pair.2).visits = 0 ∧ (nd t' pair.2).wins = 0) ∧
        (a, c) ∈ (nd t' h).children ∧ g.get_next_state s a = some s') := by
  constructor
  · intro hterm
    unfold Mcts.expand
    rw [if_pos hterm]
  · intro hterm
    obtain ⟨a, c, s', rng', hexp, hamem, hs', hpair⟩ :=
      expand_ok g t rng h s hterm hp hempty hnodup hne hnext
    obtain ⟨spec1, spec2, spec3, spec4, spec5, spec6⟩ :=
      addChildren_spec (g.get_actions s) t h hp hnodup (by rw [hempty]; simp)
    set t' := (g.get_actions s).foldl (fun tt a => (tt.add_child h a).1) t with ht'
    have hch : (nd t' h).children =
        ((g.get_actions s).enumFrom t.nodes.length).map (fun ia => (ia.2, ia.1)) := by
      rw [spec4, hempty]
      simp
    have hkeys : (nd t' h).children.map Prod.fst = g.get_actions s := by
      rw [hch, List.map_map]
      exact List.enumFrom_map_snd _ _
    refine ⟨a, c, s', t', rng', hexp, hamem, hkeys, ?_, ?_, hpair, hs'⟩
    · rw [hch]
      simp [List.enumFrom_length]
    · intro pair hpairmem
      rw [hch] at hpairmem
      obtain ⟨i, hi, hp2⟩ := mem_enum_swap _ _ hpairmem
      rw [hp2, spec6 i hi]
      exact ⟨rfl, rfl⟩

open MctsE2E (State Action c4Game)

/-- Witness for claim C8: expanding the fresh root of the empty 4×1 Connect
Four game. -/
theorem claim_expand_contract_witness :
    ∃ a c s' t' rng',
      Mcts.expand c4Game
        (MctsTree.new ⟨⟨[ConnectFourLogic.Cell.empty, ConnectFourLogic.Cell.empty,
          ConnectFourLogic.Cell.empty, ConnectFourLogic.Cell.empty], 4, 1⟩,
            .player1, .player1⟩)
        ⟨fun _ => 0, 0⟩ 0
        ⟨⟨[ConnectFourLogic.Cell.empty, ConnectFourLogic.Cell.empty,
          ConnectFourLogic.Cell.empty, ConnectFourLogic.Cell.empty], 4, 1⟩,
            .player1, .player1⟩ = some (c, s', t', rng') ∧
      a ∈ (⟨⟨[ConnectFourLogic.Cell.empty, ConnectFourLogic.Cell.empty,
          ConnectFourLogic.Cell.empty, ConnectFourLogic.Cell.empty], 4, 1⟩,
            .player1, .player1⟩ : State).get_actions ∧
      (nd t' 0).children.map Prod.fst =
        (⟨⟨[ConnectFourLogic.Cell.empty, ConnectFourLogic.Cell.empty,
          ConnectFourLogic.Cell.empty, ConnectFourLogic.Cell.empty], 4, 1⟩,
            .player1, .player1⟩ : State).get_actions ∧
      (nd t' 0).children.length =
        ((⟨⟨[ConnectFourLogic.Cell.empty, ConnectFourLogic.Cell.empty,
          ConnectFourLogic.Cell.empty, ConnectFourLogic.Cell.empty], 4, 1⟩,
            .player1, .player1⟩ : State).get_actions).length ∧
      (∀ pair ∈ (nd t' 0).children,
        (nd t' pair.2).visits = 0 ∧ (nd t' pair.2).wins = 0) ∧
      (a, c) ∈ (nd t' 0).children ∧
      (⟨⟨[ConnectFourLogic.Cell.empty, ConnectFourLogic.Cell.empty,
          ConnectFourLogic.Cell.empty, ConnectFourLogic.Cell.empty], 4, 1⟩,
            .player1, .player1⟩ : State).get_next_state a = some s' := by
  exact (claim_expand_contract c4Game _ _ 0 _ (by decide) (by decide) (by decide)
    (by decide) (fun a ha => (MctsE2E.c4_next_ok ha).imp fun s' hs' => hs'.1)).2 rfl

end Mcts

namespace Mcts

theorem edge_source_lt {S A : Type} {t : MctsTree S A} {j : Nat} {a : A} {c : Nat}
    (h : (a, c) ∈ (nd t j).children) : j < t.nodes.length := by
  by_contra hge
  rw [nd_of_le t j (by omega)] at h
  exact absurd h (List.not_mem_nil _)

theorem replay_unique {S A : Type} (g : Game S A) {t : MctsTree S A}
    (hwf : TreeWF t) :
    ∀ i : Nat, ∀ {s s' : S}, ReplayAt g t i s → ReplayAt g t i s' → s = s' := by
  intro i
  induction i using Nat.strong_induction_on with
  | _ i ih =>
    intro s s' h1 h2
    cases h1 with
    | root =>
      cases h2 with
      | root => rfl
      | child h2' hmem hnx =>
        have hsrc := edge_source_lt hmem
        have hlt := (hwf.child_bounds _ hsrc _ _ hmem).1
        rw [hwf.root_zero] at hlt
        omega
    | child h1' hmem1 hnx1 =>
      cases h2 with
      | root =>
        have hsrc := edge_source_lt hmem1
        have hlt := (hwf.child_bounds _ hsrc _ _ hmem1).1
        rw [hwf.root_zero] at hlt
        omega
      | child h2' hmem2 hnx2 =>
        have hs1 := edge_source_lt hmem1
        have hs2 := edge_source_lt hmem2
        obtain ⟨hij, hab⟩ := hwf.edge_unique _ _ _ _ _ hs1 hs2 hmem1 hmem2
        subst hij
        subst hab
        have hlt := (hwf.child_bounds _ hs1 _ _ hmem1).1
        have heq := ih _ hlt h1' h2'
        subst heq
        rw [hnx1] at hnx2
        injection hnx2

theorem ReplayAt_congr {S A : Type} {g : Game S A} {t t' : MctsTree S A}
    (hch : ∀ j, (nd t' j).children = (nd t j).children)
    (hroot : t'.root = t.root) (hrs : t'.root_state = t.root_state) :
    ∀ {i : Nat} {s : S}, ReplayAt g t i s → ReplayAt g t' i s := by
  intro i s h
  induction h with
  | root =>
    have h0 := ReplayAt.root (g := g) (t := t')
    rw [hroot, hrs] at h0
    exact h0
  | child h' hmem hnx ih =>
    exact ReplayAt.child ih (by rw [hch]; exact hmem) hnx

theorem ReplayInv_congr {S A : Type} {g : Game S A} {P : S → Prop}
    {t t' : MctsTree S A} (hri : ReplayInv g P t)
    (hch : ∀ j, (nd t' j).children = (nd t j).children)
    (hroot : t'.root = t.root) (hrs : t'.root_state = t.root_state) :
    ReplayInv g P t' := by
  intro i s h
  have hback : ReplayAt g t i s :=
    ReplayAt_congr (fun j => (hch j).symm) hroot.symm hrs.symm h
  obtain ⟨hP, hconcl⟩ := hri i s hback
  refine ⟨hP, ?_⟩
  intro hne
  rw [hch i] at hne ⊢
  exact hconcl hne

theorem ReplayInv_new {S A : Type} (g : Game S A) (P : S → Prop) (s : S)
    (hP : P s) : ReplayInv g P (MctsTree.new (S := S) (A := A) s) := by
  intro i s₀ h
  cases h with
  | root => exact ⟨hP, fun hne => absurd rfl hne⟩
  | @child j s₁ a c s₂ h' hmem hnx =>
    rcases j with _ | j
    · exact absurd hmem (by simp [nd, MctsTree.new, MctsNode.new])
    · exact absurd hmem (by simp [nd, MctsTree.new, MctsNode.new, default])

end Mcts

namespace ConnectFourLogic

theorem get_legal_moves_ne_nil {b : Board} (p : Player)
    (hw4 : 4 ≤ b.width) (hh1 : 1 ≤ b.height)
    (hterm : is_terminal_position b = .isNotTerminal) :
    get_legal_moves b p ≠ [] := by
  intro hempty
  have hnomove : ∀ col, col < b.width →
      ¬ (b.can_insert col).isOk ∧ ¬ (b.can_pop col p).isOk := by
    intro col hcol
    constructor <;> intro hc
    · have hm : (⟨MoveType.insert, col⟩ : Move) ∈ get_legal_moves b p :=
        mem_get_legal_moves.mpr ⟨hcol, Or.inl ⟨rfl, hc⟩⟩
      rw [hempty] at hm
      exact List.not_mem_nil _ hm
    · have hm : (⟨MoveType.pop, col⟩ : Move) ∈ get_legal_moves b p :=
        mem_get_legal_moves.mpr ⟨hcol, Or.inr ⟨rfl, hc⟩⟩
      rw [hempty] at hm
      exact List.not_mem_nil _ hm
  have hbot : ∀ col, col < b.width → b.get col (b.height - 1) = Cell.player p.other := by
    intro col hcol
    rcases hg : b.get col (b.height - 1) with _ | q
    · exact absurd ((b.can_insert_isOk_iff col).mpr ⟨b.height - 1, by omega, hg⟩)
        (hnomove col hcol).1
    · have hne : q ≠ p := by
        intro hqp
        subst hqp
        exact (hnomove col hcol).2 ((b.can_pop_isOk_iff col q).mpr hg)
      cases p <;> cases q <;> simp_all [Player.other]
  have hlw : lineWin b p.other 0 (b.height - 1) Dir.horiz := by
    refine ⟨⟨by omega, by omega⟩, ?_⟩
    intro cr hcr
    simp only [lineCells, List.mem_cons, List.not_mem_nil, or_false] at hcr
    rcases hcr with rfl | rfl | rfl | rfl <;> exact hbot _ (by omega)
  obtain ⟨q, hq⟩ := terminal_win_of_hasWin ⟨p.other, 0, b.height - 1, Dir.horiz, hlw⟩
  rw [hterm] at hq
  exact TerminalPosition.noConfusion hq

theorem flatMap_range_nodup {f : Nat → List Move}
    (hnd : ∀ c, (f c).Nodup) (hcol : ∀ c, ∀ m ∈ f c, m.column = c) :
    ∀ w, ((List.range w).flatMap f).Nodup := by
  intro w
  induction w with
  | zero => simp
  | succ w ih =>
    rw [List.range_succ, List.flatMap_append]
    refine List.Nodup.append ih (by simpa using hnd w) ?_
    intro m hm1 hm2
    simp only [List.mem_flatMap, List.mem_range] at hm1
    obtain ⟨c, hc, hmc⟩ := hm1
    simp only [List.flatMap_cons, List.flatMap_nil, List.append_nil] at hm2
    have h1 := hcol c m hmc
    have h2 := hcol w m hm2
    omega

theorem get_legal_moves_nodup (b : Board) (p : Player) :
    (get_legal_moves b p).Nodup := by
  unfold get_legal_moves
  apply flatMap_range_nodup
  · intro c
    split_ifs <;> simp
  · intro c m hm
    split_ifs at hm <;> simp only [List.mem_append, List.mem_singleton,
      List.not_mem_nil, or_false, false_or] at hm <;>
      first
      | (rcases hm with rfl | rfl; rfl; rfl)
      | (subst hm; rfl)

end ConnectFourLogic

namespace MctsE2E

open ConnectFourLogic
open Mcts (SimulationResult Rng Game GoodGame choose choose_mem)

theorem c4_actions_nodup (s : State) : s.get_actions.Nodup := by
  unfold State.get_actions
  refine (get_legal_moves_nodup s.board s.turn).map ?_
  intro x y h
  injection h

theorem c4_next_good {s : State} {a : Action} (hok : StateOK s)
    (ha : a ∈ s.get_actions) :
    ∃ s', s.get_next_state a = some s' ∧ StateOK s' := by
  obtain ⟨s', hs', hw, hh, hl, -⟩ := c4_next_ok ha
  refine ⟨s', hs', ⟨?_, ?_, ?_⟩⟩
  · show s'.board.cells.length = s'.board.width * s'.board.height
    rw [hl, hw, hh]
    exact hok.1
  · rw [hw]; exact hok.2.1
  · rw [hh]; exact hok.2.2

theorem playoutLoop_total : ∀ (n : Nat) (b : Board) (p : Player) (rng : Rng),
    ∃ out, playoutLoop b p rng n = some out := by
  intro n
  induction n with
  | zero => exact fun b p rng => ⟨(b, rng), rfl⟩
  | succ n ih =>
    intro b p rng
    rw [show playoutLoop b p rng (n + 1) =
        (if is_terminal_position b ≠ TerminalPosition.isNotTerminal then some (b, rng)
          else
            if get_legal_moves b p = [] then some (b, rng)
            else
              match scanWin b p (get_legal_moves b p) with
              | none => none
              | some (some b') => some (b', rng)
              | some none =>
                match choose (get_legal_moves b p) rng with
                | (none, _) => none
                | (some mv, rng') =>
                  match applyMoveB b p mv with
                  | none => none
                  | some b' => playoutLoop b' p.other rng' n)
      from rfl]
    by_cases hterm : is_terminal_position b ≠ TerminalPosition.isNotTerminal
    · rw [if_pos hterm]
      exact ⟨(b, rng), rfl⟩
    · rw [if_neg hterm]
      by_cases hmv : get_legal_moves b p = []
      · rw [if_pos hmv]
        exact ⟨(b, rng), rfl⟩
      · rw [if_neg hmv]
        have hall : ∀ m ∈ get_legal_moves b p, ∃ b', applyMoveB b p m = some b' :=
          fun m hmem => (applyMoveB_of_legal hmem).imp fun b' h => h.1
        obtain ⟨x, hx⟩ := scanWin_total hall
        rw [hx]
        rcases x with _ | b'
        · dsimp only
          obtain ⟨mv, rng', hch, hmvmem⟩ := choose_mem _ rng hmv
          rw [hch]
          dsimp only
          obtain ⟨b', hb'⟩ := hall mv hmvmem
          rw [hb']
          exact ih b' p.other rng'
        · exact ⟨(b', rng), rfl⟩

theorem playout_total (s : State) (d : Int) (rng : Rng) :
    ∃ out, playout s d rng = some out := by
  obtain ⟨⟨b, rng'⟩, h⟩ := playoutLoop_total d.toNat s.board s.turn rng
  unfold playout
  rw [h]
  dsimp only
  split_ifs <;> exact ⟨_, rfl⟩

theorem simulateLoop_total (s : State) (d : Int) :
    ∀ (n : Nat) (rng : Rng), ∃ out, simulateLoop s d rng n = some out := by
  intro n
  induction n with
  | zero => exact fun rng => ⟨([], rng), rfl⟩
  | succ n ih =>
    intro rng
    obtain ⟨⟨res, rng'⟩, hp⟩ := playout_total s d rng
    obtain ⟨⟨rest, rng''⟩, hrest⟩ := ih rng'
    refine ⟨(res :: rest, rng''), ?_⟩
    rw [show simulateLoop s d rng (n + 1) =
        (match playout s d rng with
          | none => none
          | some (res, rng') =>
            match simulateLoop s d rng' n with
            | none => none
            | some (rest, rng'') => some (res :: rest, rng''))
      from rfl, hp]
    dsimp only
    rw [hrest]

theorem c4_simulate_ok (s : State) (k d : Int) (r : Rng) :
    ∃ out, State.simulate s k d r = some out := by
  unfold State.simulate
  exact simulateLoop_total s d k.toNat r

theorem c4_GoodGame : GoodGame c4Game StateOK := by
  refine ⟨?_, ?_, ?_, ?_⟩
  · intro s hok hterm hleg
    have hnt : is_terminal_position s.board = TerminalPosition.isNotTerminal := by
      have := of_decide_eq_false hterm
      simpa using this
    have hne := get_legal_moves_ne_nil s.turn hok.2.1 hok.2.2 hnt
    apply hne
    have : (get_legal_moves s.board s.turn).map Action.mk = [] := hleg
    exact List.map_eq_nil_iff.mp this
  · intro s _
    exact c4_actions_nodup s
  · intro s a hok ha
    exact c4_next_good hok ha
  · intro s k d r _
    exact c4_simulate_ok s k d r

end MctsE2E

namespace Mcts

theorem mem_enum_swap_full {A : Type} :
    ∀ (as : List A) (L : Nat) {pair : A × Nat},
      pair ∈ (as.enumFrom L).map (fun ia => (ia.2, ia.1)) →
      pair.1 ∈ as ∧ ∃ i, i < as.length ∧ pair.2 = L + i := by
  intro as
  induction as with
  | nil => intro L pair h; exact absurd h (by simp)
  | cons a as ih =>
    intro L pair h
    rw [List.enumFrom_cons, List.map_cons] at h
    rcases List.mem_cons.mp h with rfl | h'
    · exact ⟨List.mem_cons_self a as, 0, by simp, rfl⟩
    · obtain ⟨hm, i, hi, hpi⟩ := ih (L + 1) h'
      exact ⟨List.mem_cons_of_mem a hm, i + 1, by simpa using hi, by omega⟩

theorem ReplayAt_addMany_cases {S A : Type} [DecidableEq A] (g : Game S A)
    {t : MctsTree S A} {nk : Nat} {s : S} (hwf : TreeWF t)
    (hnk : nk < t.nodes.length) (hempty : (nd t nk).children = [])
    (hrepnk : ReplayAt g t nk s) (hnodup : (g.get_actions s).Nodup)
    {i : Nat} {s₀ : S}
    (hrep : ReplayAt g
      ((g.get_actions s).foldl (fun tt a => (tt.add_child nk a).1) t) i s₀) :
    (i < t.nodes.length ∧ ReplayAt g t i s₀) ∨
      (t.nodes.length ≤ i ∧ i < t.nodes.length + (g.get_actions s).length ∧
        ∃ a ∈ g.get_actions s, g.get_next_state s a = some s₀) := by
  obtain ⟨spec1, spec2, spec3, spec4, spec5, spec6⟩ :=
    addChildren_spec (g.get_actions s) t nk hnk hnodup (by rw [hempty]; simp)
  induction hrep with
  | root =>
    refine Or.inl ⟨?_, ?_⟩
    · rw [spec2, hwf.root_zero]
      exact hwf.nonempty
    · rw [spec2, spec3]
      exact ReplayAt.root
  | @child j s₁ a c s₂ h' hmem hnx ih =>
    rcases ih with ⟨hjlt, hrepj⟩ | ⟨hge, hlt, -⟩
    · by_cases hj : j = nk
      · subst hj
        rw [spec4] at hmem
        dsimp only at hmem
        rw [hempty, List.nil_append] at hmem
        obtain ⟨hamem, idx, hidx, hc⟩ := mem_enum_swap_full (g.get_actions s) _ hmem
        have heq : s₁ = s := replay_unique g hwf j hrepj hrepnk
        rw [heq] at hnx
        exact Or.inr ⟨by omega, by omega, a, hamem, hnx⟩
      · rw [spec5 j hj hjlt] at hmem
        obtain ⟨-, hclt, -⟩ := hwf.child_bounds j hjlt a c hmem
        exact Or.inl ⟨hclt, ReplayAt.child hrepj hmem hnx⟩
    · have h6 := spec6 (j - t.nodes.length) (by omega)
      rw [show t.nodes.length + (j - t.nodes.length) = j from by omega] at h6
      rw [h6] at hmem
      exact absurd hmem (by simp [MctsNode.new])

theorem ReplayInv_expand {S A : Type} [DecidableEq A] {g : Game S A} {P : S → Prop}
    (hgg : GoodGame g P) {t : MctsTree S A} {nk : Nat} {s : S}
    (hwf : TreeWF t) (hri : ReplayInv g P t) (hnk : nk < t.nodes.length)
    (hempty : (nd t nk).children = []) (hrepnk : ReplayAt g t nk s)
    (hterm : g.is_terminal s = false) :
    ReplayInv g P ((g.get_actions s).foldl (fun tt a => (tt.add_child nk a).1) t) := by
  have Ps := (hri nk s hrepnk).1
  have hnodup := hgg.actions_nodup s Ps
  obtain ⟨spec1, spec2, spec3, spec4, spec5, spec6⟩ :=
    addChildren_spec (g.get_actions s) t nk hnk hnodup (by rw [hempty]; simp)
  have hkeys : (nd ((g.get_actions s).foldl (fun tt a => (tt.add_child nk a).1) t)
      nk).children.map Prod.fst = g.get_actions s := by
    rw [spec4, hempty]
    simp only [List.nil_append]
    rw [List.map_map]
    exact List.enumFrom_map_snd _ _
  intro i s₀ hrep'
  rcases ReplayAt_addMany_cases g hwf hnk hempty hrepnk hnodup hrep' with
    ⟨hilt, hrepold⟩ | ⟨hge, hlt, a, hamem, hnx⟩
  · refine ⟨(hri i s₀ hrepold).1, ?_⟩
    by_cases hi : i = nk
    · subst hi
      intro hne
      have hs₀ : s₀ = s := replay_unique g hwf i hrepold hrepnk
      subst hs₀
      exact ⟨hterm, hkeys⟩
    · intro hne
      rw [spec5 i hi hilt] at hne ⊢
      exact (hri i s₀ hrepold).2 hne
  · obtain ⟨s₁, hs₁, hP₁⟩ := hgg.next_ok s a Ps hamem
    rw [hnx] at hs₁
    injection hs₁ with hs₁
    subst hs₁
    refine ⟨hP₁, ?_⟩
    intro hne
    have h6 := spec6 (i - t.nodes.length) (by omega)
    rw [show t.nodes.length + (i - t.nodes.length) = i from by omega] at h6
    rw [h6] at hne
    simp only [MctsNode.new] at hne
    exact absurd rfl hne

end Mcts

namespace Mcts

theorem iteration_ok {S A β : Type} [DecidableEq A] [LinearOrder β] {g : Game S A}
    {P : S → Prop} (hgg : GoodGame g P) (score : Int → Int → Int → β)
    (m : Mcts S A) (hwf : TreeWF m.tree) (hci : CountersInv m.tree)
    (hri : ReplayInv g P m.tree) :
    ∃ m', m.iteration g score = some m' ∧ TreeWF m'.tree ∧ CountersInv m'.tree ∧
      ReplayInv g P m'.tree ∧ m'.tree.root = m.tree.root ∧
      m'.tree.root_state = m.tree.root_state ∧
      m'.iteration_limit = m.iteration_limit ∧
      m'.playouts_per_simulation = m.playouts_per_simulation ∧
      m'.max_depth_per_playout = m.max_depth_per_playout ∧
      ((nd m.tree m.tree.root).children ≠ [] →
        (nd m'.tree m'.tree.root).children ≠ []) ∧
      ((nd m.tree m.tree.root).children = [] →
        g.is_terminal m.tree.root_state = false →
        (nd m'.tree m'.tree.root).children ≠ []) := by
  have hroot_lt : m.tree.root < m.tree.nodes.length := by
    rw [hwf.root_zero]
    exact hwf.nonempty
  have hcb : ∀ i, i < m.tree.nodes.length → ∀ a c, (a, c) ∈ (nd m.tree i).children →
      i < c ∧ c < m.tree.nodes.length := fun i hi a c hmem =>
    ⟨(hwf.child_bounds i hi a c hmem).1, (hwf.child_bounds i hi a c hmem).2.1⟩
  obtain ⟨nk', s', hselL, hrep', hchempty', hnk'lt, hdisj⟩ :=
    selectLoop_ok g score m.tree P hgg hri hcb (m.tree.nodes.length + 1) m.tree.root
      m.tree.root_state ReplayAt.root hroot_lt (by omega)
  have hsel : m.select g score = some (nk', s') := hselL
  have Ps' : P s' := (hri nk' s' hrep').1
  by_cases hterm' : g.is_terminal s' = true
  · -- the selected node's state is terminal: `expand` is the identity
    have hexp : Mcts.expand g m.tree m.rng nk' s' = some (nk', s', m.tree, m.rng) := by
      unfold Mcts.expand
      rw [hterm']
      rw [if_pos rfl]
    obtain ⟨⟨results, rng₃⟩, hsim⟩ :=
      hgg.simulate_ok s' m.playouts_per_simulation m.max_depth_per_playout m.rng Ps'
    obtain ⟨t₃, hbp, hlen₃, hroot₃, hrs₃, hon, hoff⟩ :=
      bpLoop_spec results m.tree.nodes.length m.tree nk' hwf.parent_lt hnk'lt (by omega)
    have hsame : ∀ i, (nd t₃ i).parent = (nd m.tree i).parent ∧
        (nd t₃ i).children = (nd m.tree i).children := by
      intro i
      by_cases hpath : OnPath m.tree nk' i
      · rw [hon i hpath, bpNode_parent, bpNode_children]
        exact ⟨rfl, rfl⟩
      · rw [hoff i hpath]
        exact ⟨rfl, rfl⟩
    refine ⟨{ m with tree := t₃, rng := rng₃ }, ?_, TreeWF_congr hwf hlen₃ hroot₃ hsame,
      bp_CountersInv hci hlen₃ (fun i => (hsame i).1) hon hoff,
      ReplayInv_congr hri (fun i => (hsame i).2) hroot₃ hrs₃,
      hroot₃, hrs₃, rfl, rfl, rfl, ?_, ?_⟩
    · unfold Mcts.iteration
      rw [hsel]
      dsimp only
      rw [hexp]
      dsimp only
      rw [hsim]
      dsimp only
      rw [show Mcts.back_propagate m.tree nk' results =
          bpLoop results m.tree m.tree.nodes.length nk' from rfl, hbp]
    · intro hch
      show (nd t₃ t₃.root).children ≠ []
      rw [hroot₃, (hsame m.tree.root).2]
      exact hch
    · intro hchroot hrootterm
      have heq : nk' = m.tree.root := by
        rcases hdisj with h | h
        · exact h
        · exact absurd hchroot h
      rw [heq] at hrep'
      have hs'eq : s' = m.tree.root_state :=
        replay_unique g hwf m.tree.root hrep' ReplayAt.root
      rw [hs'eq, hrootterm] at hterm'
      exact Bool.noConfusion hterm'
  · -- non-terminal: `expand` grows the tree at the selected node
    rw [Bool.not_eq_true] at hterm'
    obtain ⟨a, c, s₂, rng₂, hexp, hamem, hnx, hcmem⟩ :=
      expand_ok g m.tree m.rng nk' s' hterm' hnk'lt hchempty'
        (hgg.actions_nodup s' Ps') (hgg.actions_nonempty s' Ps' hterm')
        (fun a ha => (hgg.next_ok s' a Ps' ha).imp fun s'' h => h.1)
    obtain ⟨spec1, spec2, spec3, spec4, spec5, spec6⟩ :=
      addChildren_spec (g.get_actions s') m.tree nk' hnk'lt (hgg.actions_nodup s' Ps')
        (by rw [hchempty']; simp)
    have hwf' := addMany_TreeWF (g.get_actions s') hwf hnk'lt
    have hci' := addMany_CountersInv (g.get_actions s') hci hwf hnk'lt
    have hri' := ReplayInv_expand hgg hwf hri hnk'lt hchempty' hrep' hterm'
    have hclt : c < ((g.get_actions s').foldl
        (fun tt a => (tt.add_child nk' a).1) m.tree).nodes.length :=
      (hwf'.child_bounds nk' (by rw [spec1]; omega) a c hcmem).2.1
    have hP₂ : P s₂ := by
      obtain ⟨s₃, hs₃, hP₃⟩ := hgg.next_ok s' a Ps' hamem
      rw [hnx] at hs₃
      injection hs₃ with hs₃
      rw [hs₃]
      exact hP₃
    obtain ⟨⟨results, rng₃⟩, hsim⟩ :=
      hgg.simulate_ok s₂ m.playouts_per_simulation m.max_depth_per_playout rng₂ hP₂
    obtain ⟨t₃, hbp, hlen₃, hroot₃, hrs₃, hon, hoff⟩ :=
      bpLoop_spec results ((g.get_actions s').foldl
          (fun tt a => (tt.add_child nk' a).1) m.tree).nodes.length
        ((g.get_actions s').foldl (fun tt a => (tt.add_child nk' a).1) m.tree) c
        hwf'.parent_lt hclt (by omega)
    have hsame : ∀ i, (nd t₃ i).parent =
        (nd ((g.get_actions s').foldl (fun tt a => (tt.add_child nk' a).1) m.tree) i).parent ∧
        (nd t₃ i).children =
        (nd ((g.get_actions s').foldl (fun tt a => (tt.add_child nk' a).1) m.tree) i).children := by
      intro i
      by_cases hpath : OnPath ((g.get_actions s').foldl
          (fun tt a => (tt.add_child nk' a).1) m.tree) c i
      · rw [hon i hpath, bpNode_parent, bpNode_children]
        exact ⟨rfl, rfl⟩
      · rw [hoff i hpath]
        exact ⟨rfl, rfl⟩
    refine ⟨{ m with tree := t₃, rng := rng₃ }, ?_, TreeWF_congr hwf' hlen₃ hroot₃ hsame,
      bp_CountersInv hci' hlen₃ (fun i => (hsame i).1) hon hoff,
      ReplayInv_congr hri' (fun i => (hsame i).2) hroot₃ hrs₃,
      hroot₃.trans spec2, hrs₃.trans spec3, rfl, rfl, rfl, ?_, ?_⟩
    · unfold Mcts.iteration
      rw [hsel]
      dsimp only
      rw [hexp]
      dsimp only
      rw [hsim]
      dsimp only
      rw [show Mcts.back_propagate ((g.get_actions s').foldl
            (fun tt a => (tt.add_child nk' a).1) m.tree) c results =
          bpLoop results ((g.get_actions s').foldl
            (fun tt a => (tt.add_child nk' a).1) m.tree)
            ((g.get_actions s').foldl
              (fun tt a => (tt.add_child nk' a).1) m.tree).nodes.length c from rfl, hbp]
    · intro hch
      show (nd t₃ t₃.root).children ≠ []
      rw [hroot₃, spec2, (hsame m.tree.root).2]
      have hne_root : m.tree.root ≠ nk' := by
        intro h
        rw [h, hchempty'] at hch
        exact hch rfl
      rw [spec5 m.tree.root hne_root hroot_lt]
      exact hch
    · intro hchroot _
      have heq : nk' = m.tree.root := by
        rcases hdisj with h | h
        · exact h
        · exact absurd hchroot h
      show (nd t₃ t₃.root).children ≠ []
      rw [hroot₃, spec2, (hsame m.tree.root).2, ← heq]
      exact List.ne_nil_of_mem hcmem

end Mcts

namespace Mcts

theorem runIter_ok {S A β : Type} [DecidableEq A] [LinearOrder β] {g : Game S A}
    {P : S → Prop} (hgg : GoodGame g P) (score : Int → Int → Int → β) :
    ∀ (n : Nat) (m : Mcts S A), TreeWF m.tree → CountersInv m.tree →
      ReplayInv g P m.tree → g.is_terminal m.tree.root_state = false →
      ∃ m', m.runIter g score n = some m' ∧ TreeWF m'.tree ∧ CountersInv m'.tree ∧
        ReplayInv g P m'.tree ∧ m'.tree.root = m.tree.root ∧
        m'.tree.root_state = m.tree.root_state ∧
        ((1 ≤ n ∨ (nd m.tree m.tree.root).children ≠ []) →
          (nd m'.tree m'.tree.root).children ≠ []) := by
  intro n
  induction n with
  | zero =>
    intro m hwf hci hri _
    refine ⟨m, rfl, hwf, hci, hri, rfl, rfl, ?_⟩
    rintro (h | h)
    · omega
    · exact h
  | succ n ih =>
    intro m hwf hci hri hterm
    obtain ⟨m₁, hit, hwf₁, hci₁, hri₁, hroot₁, hrs₁, -, -, -, hkeep, hmake⟩ :=
      iteration_ok hgg score m hwf hci hri
    have hterm₁ : g.is_terminal m₁.tree.root_state = false := by
      rw [hrs₁]
      exact hterm
    obtain ⟨m', hrun, hwf', hci', hri', hroot', hrs', hch'⟩ :=
      ih m₁ hwf₁ hci₁ hri₁ hterm₁
    refine ⟨m', ?_, hwf', hci', hri', hroot'.trans hroot₁, hrs'.trans hrs₁, ?_⟩
    · rw [show m.runIter g score (n + 1) =
          (match m.iteration g score with
            | none => none
            | some m₁ => m₁.runIter g score n) from rfl, hit]
      exact hrun
    · intro _
      apply hch'
      right
      by_cases hch : (nd m.tree m.tree.root).children = []
      · exact hmake hch hterm
      · exact hkeep hch

end Mcts

namespace Mcts

open MctsE2E (State Action c4Game)

/-- Counterexample to claim C2 as stated (any board size, any finite budget):
on the 1×1 board holding one Player1 piece with Player2 to move, the position
is not terminal (Player1 could still pop), yet Player2 has no legal action, so
the first iteration's `expand` hits its `unwrap` panic and `run` has no
panic-free result; and with a zero iteration budget `run` finishes but
`best_action` yields no action at all. -/
theorem claim_run_safety_counterexample :
    State.is_terminal ⟨⟨[ConnectFourLogic.Cell.player .player1], 1, 1⟩,
        .player2, .player2⟩ = false ∧
    (Mcts.new (S := State) (A := Action)
        ⟨⟨[ConnectFourLogic.Cell.player .player1], 1, 1⟩, .player2, .player2⟩
        (.iterations 1) 1 1 ⟨fun _ => 0, 0⟩).run c4Game (fun _ _ _ => (0 : Int)) =
      none ∧
    ∃ m', (Mcts.new (S := State) (A := Action)
        ⟨⟨[ConnectFourLogic.Cell.empty, ConnectFourLogic.Cell.empty,
            ConnectFourLogic.Cell.empty, ConnectFourLogic.Cell.empty], 4, 1⟩,
          .player1, .player1⟩
        (.iterations 0) 1 1 ⟨fun _ => 0, 0⟩).run c4Game (fun _ _ _ => (0 : Int)) =
      some m' ∧ m'.best_action = none :=
  ⟨rfl, rfl, _, rfl, rfl⟩

/-- claim C2 (amended) — for every well-formed Connect Four state on a board
at least four columns wide and one row high that is not terminal, and every
iteration budget `N ≥ 1`, `run` completes without panicking and `best_action`
then yields a legal action of the root state. -/
theorem claim_run_safety {β : Type} [LinearOrder β] (score : Int → Int → Int → β)
    (s : State) (n pl dp : Int) (rng : Rng)
    (hok : MctsE2E.StateOK s) (hterm : State.is_terminal s = false) (hn : 1 ≤ n) :
    ∃ m' a, (Mcts.new s (.iterations n) pl dp rng).run c4Game score = some m' ∧
      m'.best_action = some a ∧ a ∈ s.get_actions := by
  have hrun0 : (Mcts.new (S := State) (A := Action) s
        (.iterations n) pl dp rng).run c4Game score =
      Mcts.runIter c4Game score (Mcts.new s (.iterations n) pl dp rng) n.toNat := rfl
  obtain ⟨m', hrun, hwf', hci', hri', hroot', hrs', hch'⟩ :=
    runIter_ok MctsE2E.c4_GoodGame score n.toNat
      (Mcts.new s (.iterations n) pl dp rng) (TreeWF_new s) (CountersInv_new s)
      (ReplayInv_new c4Game MctsE2E.StateOK s hok) hterm
  have hch'' : (nd m'.tree m'.tree.root).children ≠ [] :=
    hch' (Or.inl (by omega))
  have hroot_lt : m'.tree.root < m'.tree.nodes.length := by
    rw [hwf'.root_zero]
    exact hwf'.nonempty
  have hvis : ∀ ac ∈ (nd m'.tree m'.tree.root).children,
      0 ≤ (nd m'.tree ac.2).visits := by
    rintro ⟨a0, c0⟩ hac
    obtain ⟨-, hlt, -⟩ := hwf'.child_bounds m'.tree.root hroot_lt a0 c0 hac
    obtain ⟨h0, h1, -⟩ := hci' c0 hlt
    exact le_trans h0 h1
  obtain ⟨-, hsome⟩ := best_action_spec m' hvis
  obtain ⟨a, c, hba, hmem, -⟩ := hsome hch''
  have hkeys := (hri' m'.tree.root m'.tree.root_state ReplayAt.root).2 hch''
  have hmem' : a ∈ (nd m'.tree m'.tree.root).children.map Prod.fst :=
    List.mem_map_of_mem Prod.fst hmem
  rw [hkeys.2] at hmem'
  rw [hrs'] at hmem'
  exact ⟨m', a, hrun0.trans hrun, hba, hmem'⟩

/-- Witness for the amended claim C2: one iteration on the empty 4×1 board
yields a legal best action. -/
theorem claim_run_safety_witness :
    MctsE2E.StateOK ⟨⟨[ConnectFourLogic.Cell.empty, ConnectFourLogic.Cell.empty,
        ConnectFourLogic.Cell.empty, ConnectFourLogic.Cell.empty], 4, 1⟩,
      .player1, .player1⟩ ∧
    ∃ m' a, (Mcts.new (S := State) (A := Action)
        ⟨⟨[ConnectFourLogic.Cell.empty, ConnectFourLogic.Cell.empty,
            ConnectFourLogic.Cell.empty, ConnectFourLogic.Cell.empty], 4, 1⟩,
          .player1, .player1⟩
        (.iterations 1) 1 1 ⟨fun _ => 0, 0⟩).run c4Game (fun _ _ _ => (0 : Int)) =
        some m' ∧
      m'.best_action = some a ∧
      a ∈ State.get_actions ⟨⟨[ConnectFourLogic.Cell.empty, ConnectFourLogic.Cell.empty,
          ConnectFourLogic.Cell.empty, ConnectFourLogic.Cell.empty], 4, 1⟩,
        .player1, .player1⟩ :=
  ⟨by decide, claim_run_safety (fun _ _ _ => (0 : Int)) _ 1 1 1 ⟨fun _ => 0, 0⟩
    (by decide) (by decide) (by decide)⟩

end Mcts

namespace Mcts

open MctsE2E (State Action c4Game)

/-- Counterexample to claim C8 as stated: the 1×1 board holding one Player1
piece with Player2 to move is a non-terminal state of a childless (fresh
root) node, yet Player2's action list is empty, so `expand` hits the `unwrap`
panic of its randomly chosen action and returns no child at all. -/
theorem claim_expand_contract_counterexample :
    c4Game.is_terminal ⟨⟨[ConnectFourLogic.Cell.player .player1], 1, 1⟩,
        .player2, .player2⟩ = false ∧
    c4Game.get_actions ⟨⟨[ConnectFourLogic.Cell.player .player1], 1, 1⟩,
        .player2, .player2⟩ = [] ∧
    (nd (MctsTree.new (S := State) (A := Action)
        ⟨⟨[ConnectFourLogic.Cell.player .player1], 1, 1⟩, .player2, .player2⟩)
      0).children = [] ∧
    Mcts.expand c4Game
        (MctsTree.new (S := State) (A := Action)
          ⟨⟨[ConnectFourLogic.Cell.player .player1], 1, 1⟩,
            .player2, .player2⟩)
        ⟨fun _ => 0, 0⟩ 0
        ⟨⟨[ConnectFourLogic.Cell.player .player1], 1, 1⟩, .player2, .player2⟩ =
      none :=
  ⟨rfl, rfl, rfl, rfl⟩

end Mcts
